import Mathlib

/-!
Verification of the cryptagraph linear-trail search engines.

This file gives a shallow embedding, in Lean 4, of the core routines of the
cryptagraph repository (GIFT / PRESENT / RECTANGLE linear-trail search):
bit helpers, the linear-approximation-table (LAT) builder, the S-box-layer
expanders, the `MaskCollector` top-K frontier, the RECTANGLE cipher layers,
and the GIFT branch-and-bound engine.  `double` values are embedded as exact
rationals (`ℚ`); machine integers as `Nat` (all operations used by the code
stay below 2^64 on the stated domains).  Theorems about these definitions
settle the frozen claims C1..C10.
-/

set_option maxRecDepth 10000

/-! ## Bit helpers (GIFT/branch-bound/helpers.cpp) -/

/-- `TINY` (helpers.cpp): pruning threshold 6e-50. -/
def TINY : ℚ := 6 / 10 ^ 50

/-- `nibbles` (helpers.cpp lines 10-18): loop body; one iteration per nibble,
`if (a & 0xf) n++; a >>= 4;`. -/
def nibbles_go : Nat → Nat → Nat
  | 0, _ => 0
  | k + 1, a => (if a &&& 0xf ≠ 0 then 1 else 0) + nibbles_go k (a >>> 4)

/-- `nibbles` (helpers.cpp): counts non-zero nibbles over `sizeof(a)*2 = 16` iterations. -/
def nibbles (a : Nat) : Nat := nibbles_go 16 a

/-- `parity` (helpers.cpp, `size_t` overload): xor-fold then mask. -/
def parity (e : Nat) : Nat :=
  let e1 := e ^^^ (e >>> 32)
  let e2 := e1 ^^^ (e1 >>> 16)
  let e3 := e2 ^^^ (e2 >>> 8)
  let e4 := e3 ^^^ (e3 >>> 4)
  let e5 := e4 ^^^ (e4 >>> 2)
  let e6 := e5 ^^^ (e5 >>> 1)
  e6 &&& 1

/-- `weight` (helpers.cpp lines 38-45): loop body, `w += a & 1; a >>= 1;`. -/
def weight_go : Nat → Nat → Nat
  | 0, _ => 0
  | k + 1, a => (a &&& 1) + weight_go k (a >>> 1)

/-- `weight` (helpers.cpp): bit-level Hamming weight, `sizeof(a)*8 = 64` iterations. -/
def weight (a : Nat) : Nat := weight_go 64 a

/-- `nibble_weight` (helpers.cpp lines 47-54): loop body,
`w += (a & 0xf) ? 1 : 0; a >>= 4;`. -/
def nibble_weight_go : Nat → Nat → Nat
  | 0, _ => 0
  | k + 1, a => (if a &&& 0xf ≠ 0 then 1 else 0) + nibble_weight_go k (a >>> 4)

/-- `nibble_weight` (helpers.cpp): counts non-zero nibbles, 16 iterations. -/
def nibble_weight (a : Nat) : Nat := nibble_weight_go 16 a

/-- The number of non-zero 4-bit nibbles of `a` among its 16 low nibbles
(reference form used to state what both helpers compute). -/
def nonzeroNibbleCount (a : Nat) : Nat :=
  ((List.range 16).filter (fun i => (a >>> (4 * i)) &&& 0xf ≠ 0)).length

lemma nibbles_go_eq_nibble_weight_go (k : Nat) : ∀ a, nibbles_go k a = nibble_weight_go k a := by
  induction k with
  | zero => intro a; rfl
  | succ k ih => intro a; simp [nibbles_go, nibble_weight_go, ih]

lemma nibble_weight_go_eq_count (k : Nat) :
    ∀ a, nibble_weight_go k a =
      (List.range k).countP (fun i => decide ((a >>> (4 * i)) &&& 0xf ≠ 0)) := by
  induction k with
  | zero => intro a; rfl
  | succ k ih =>
    intro a
    have hshift : ∀ i : Nat, (a >>> 4) >>> (4 * i) = a >>> (4 * (i + 1)) := by
      intro i
      rw [← Nat.shiftRight_add]
      congr 1
      omega
    rw [List.range_succ_eq_map, List.countP_cons, List.countP_map, nibble_weight_go, ih (a >>> 4)]
    have hcong : (List.range k).countP (fun i => decide ((a >>> 4) >>> (4 * i) &&& 0xf ≠ 0)) =
        (List.range k).countP ((fun i => decide ((a >>> (4 * i)) &&& 0xf ≠ 0)) ∘ Nat.succ) := by
      apply List.countP_congr
      intro i _
      simp [hshift i, Nat.succ_eq_add_one]
    rw [hcong]
    rcases Nat.eq_zero_or_pos (a &&& 0xf) with h | h <;> simp [h, Nat.pos_iff_ne_zero.mp]
    omega

/-- C10: the two active-nibble counters of `helpers.cpp` agree everywhere, and both
return the number of non-zero 4-bit nibbles of their argument. -/
theorem nibbles_eq_nibble_weight (a : Nat) :
    nibbles a = nibble_weight a ∧ nibbles a = nonzeroNibbleCount a := by
  constructor
  · exact nibbles_go_eq_nibble_weight_go 16 a
  · rw [nibbles, nibbles_go_eq_nibble_weight_go 16 a, nibble_weight_go_eq_count,
      nonzeroNibbleCount, List.countP_eq_length_filter]

/-! ## RECTANGLE cipher layers (RECTANGLE/cipher.cpp, RECTANGLE/helper.cpp) -/

namespace Rectangle

/-- RECTANGLE `SBOX` table (cipher.cpp lines 8-13). -/
def SBOX : List Nat := [0x6, 0x5, 0xC, 0xA, 0x1, 0xE, 0x7, 0x9, 0xB, 0x0, 0x3, 0xD, 0x8, 0xF, 0x4, 0x2]

/-- RECTANGLE `ISBOX` table (cipher.cpp lines 15-20). -/
def ISBOX : List Nat := [0x9, 0x4, 0xF, 0xA, 0xE, 0x1, 0x0, 0x6, 0xC, 0x7, 0x3, 0x8, 0x2, 0xB, 0x5, 0xD]

/-- `_rotl` (helper.cpp, `uint16_t` overload): the `&&& 0xffff` is the truncation to
`uint16_t` performed by the C return type. -/
def _rotl (value shift : Nat) : Nat := ((value <<< shift) ||| (value >>> (16 - shift))) &&& 0xffff

/-- `_rotr` (helper.cpp, `uint16_t` overload). -/
def _rotr (value shift : Nat) : Nat := ((value >>> shift) ||| (value <<< (16 - shift))) &&& 0xffff

/-- `ShiftRow` (cipher.cpp lines 22-37). -/
def ShiftRow (s : Nat) : Nat :=
  let b0 := s &&& 0xffff
  let b1 := (s >>> 16) &&& 0xffff
  let b2 := (s >>> 32) &&& 0xffff
  let b3 := (s >>> 48) &&& 0xffff
  ((((_rotl b3 13) <<< 16 ||| (_rotl b2 12)) <<< 16 ||| (_rotl b1 1)) <<< 16) ||| b0

/-- `InvShiftRow` (cipher.cpp lines 39-54). -/
def InvShiftRow (s : Nat) : Nat :=
  let b0 := s &&& 0xffff
  let b1 := (s >>> 16) &&& 0xffff
  let b2 := (s >>> 32) &&& 0xffff
  let b3 := (s >>> 48) &&& 0xffff
  ((((_rotr b3 13) <<< 16 ||| (_rotr b2 12)) <<< 16 ||| (_rotr b1 1)) <<< 16) ||| b0

/-- The 4-bit column read at position `n` (`I` in `SubColumn`/`InvSubColumn`,
cipher.cpp lines 59-67). -/
def colIn (s n : Nat) : Nat :=
  ((((((s >>> n) &&& 1) <<< 1) ||| ((s >>> (n + 16)) &&& 1)) <<< 1 |||
    ((s >>> (n + 32)) &&& 1)) <<< 1) ||| ((s >>> (n + 48)) &&& 1)

/-- The bits written back for output column value `O` at position `n`
(cipher.cpp lines 69-77): `o |= (O&1)<<(n+48); O>>=1; ...`. -/
def colOut (O n : Nat) : Nat :=
  ((O &&& 1) <<< (n + 48)) ||| (((O >>> 1) &&& 1) <<< (n + 32)) |||
    (((O >>> 2) &&& 1) <<< (n + 16)) ||| (((O >>> 3) &&& 1) <<< n)

/-- The column-substitution loop shared by `SubColumn` and `InvSubColumn`
(cipher.cpp lines 56-110), parameterized by the table. -/
def subst (tbl : List Nat) (s : Nat) : Nat :=
  (List.range 16).foldl (fun o n => o ||| colOut (tbl.getD (colIn s n) 0) n) 0

/-- `SubColumn` (cipher.cpp lines 56-82). -/
def SubColumn (s : Nat) : Nat := subst SBOX s

/-- `InvSubColumn` (cipher.cpp lines 84-110). -/
def InvSubColumn (s : Nat) : Nat := subst ISBOX s

lemma hi_bits {b k : Nat} (hb : b < 2 ^ k) : ∀ j, k ≤ j → b.testBit j = false :=
  fun j hj => Nat.testBit_lt_two_pow (lt_of_lt_of_le hb (Nat.pow_le_pow_right (by norm_num) hj))

lemma mask16_lt (x : Nat) : x &&& 0xffff < 2 ^ 16 := by
  have : x &&& 0xffff ≤ 0xffff := Nat.and_le_right
  omega

lemma mask16_testBit (x i : Nat) : (x &&& 0xffff).testBit i = (x.testBit i && decide (i < 16)) := by
  have hmask : (0xffff : Nat) = 2 ^ 16 - 1 := by norm_num
  rw [hmask, Nat.testBit_and, Nat.testBit_two_pow_sub_one]

lemma or_shiftLeft_add {k : Nat} (a : Nat) {b : Nat} (h : b < 2 ^ k) :
    (a <<< k) ||| b = 2 ^ k * a + b := by
  apply Nat.eq_of_testBit_eq; intro i
  rw [Nat.testBit_or, Nat.testBit_shiftLeft, Nat.testBit_mul_pow_two_add a h]
  by_cases hi : i < k
  · have hk : ¬ (k ≤ i) := by omega
    simp [hk, hi]
  · have hk : k ≤ i := by omega
    simp [hk, hi, hi_bits h i hk]

lemma rotl_lt (v s : Nat) : _rotl v s < 2 ^ 16 := mask16_lt _

lemma rotl_testBit_lo {b : Nat} (hb : b < 2 ^ 16) {s i : Nat} (hs : s < 16) (hi : i < s) :
    (_rotl b s).testBit i = b.testBit (16 - s + i) := by
  rw [_rotl, mask16_testBit, Nat.testBit_or, Nat.testBit_shiftLeft, Nat.testBit_shiftRight]
  have h1 : ¬ (s ≤ i) := by omega
  simp [h1, show i < 16 by omega]

lemma rotl_testBit_hi {b : Nat} (hb : b < 2 ^ 16) {s i : Nat} (hs : s < 16) (hi1 : s ≤ i)
    (hi2 : i < 16) : (_rotl b s).testBit i = b.testBit (i - s) := by
  rw [_rotl, mask16_testBit, Nat.testBit_or, Nat.testBit_shiftLeft, Nat.testBit_shiftRight]
  have h2 : 16 - s + i ≥ 16 := by omega
  simp [hi1, hi2, hi_bits hb _ h2]

lemma rotr_rotl {b s : Nat} (hb : b < 2 ^ 16) (hs1 : 0 < s) (hs : s < 16) :
    _rotr (_rotl b s) s = b := by
  have hw : _rotl b s < 2 ^ 16 := rotl_lt b s
  apply Nat.eq_of_testBit_eq; intro i
  rw [_rotr, mask16_testBit, Nat.testBit_or, Nat.testBit_shiftLeft, Nat.testBit_shiftRight]
  by_cases hi : i < 16
  · by_cases hcase : i < 16 - s
    · have h1 : (_rotl b s).testBit (s + i) = b.testBit i := by
        rw [rotl_testBit_hi hb hs (by omega) (by omega)]; congr 1; omega
      have h2 : ¬ (16 - s ≤ i) := by omega
      simp [h1, h2, hi]
    · have h1 : (_rotl b s).testBit (s + i) = false := hi_bits hw _ (by omega)
      have h2 : (_rotl b s).testBit (i - (16 - s)) = b.testBit i := by
        rw [rotl_testBit_lo hb hs (by omega)]; congr 1; omega
      simp [h1, h2, show 16 - s ≤ i by omega, hi]
  · simp [hi, hi_bits hb i (by omega)]

lemma mask16_eq_mod (x : Nat) : x &&& 0xffff = x % 65536 := by
  have := Nat.and_pow_two_sub_one_eq_mod x 16
  norm_num at this
  exact this

lemma row_extract (r3 r2 r1 r0 : Nat) (h3 : r3 < 2 ^ 16) (h2 : r2 < 2 ^ 16)
    (h1 : r1 < 2 ^ 16) (h0 : r0 < 2 ^ 16) :
    (((((r3 <<< 16 ||| r2) <<< 16 ||| r1) <<< 16) ||| r0) &&& 0xffff = r0) ∧
    ((((((r3 <<< 16 ||| r2) <<< 16 ||| r1) <<< 16) ||| r0) >>> 16) &&& 0xffff = r1) ∧
    ((((((r3 <<< 16 ||| r2) <<< 16 ||| r1) <<< 16) ||| r0) >>> 32) &&& 0xffff = r2) ∧
    ((((((r3 <<< 16 ||| r2) <<< 16 ||| r1) <<< 16) ||| r0) >>> 48) &&& 0xffff = r3) := by
  rw [or_shiftLeft_add _ h2, or_shiftLeft_add _ h1, or_shiftLeft_add _ h0]
  simp only [mask16_eq_mod, Nat.shiftRight_eq_div_pow]
  refine ⟨by omega, by omega, by omega, by omega⟩

lemma row_recompose {s : Nat} (hs : s < 2 ^ 64) :
    ((((((s >>> 48) &&& 0xffff) <<< 16 ||| ((s >>> 32) &&& 0xffff)) <<< 16 |||
      ((s >>> 16) &&& 0xffff)) <<< 16) ||| (s &&& 0xffff)) = s := by
  rw [or_shiftLeft_add _ (mask16_lt ((s >>> 32))), or_shiftLeft_add _ (mask16_lt ((s >>> 16))),
    or_shiftLeft_add _ (mask16_lt s)]
  simp only [mask16_eq_mod, Nat.shiftRight_eq_div_pow]
  omega

lemma InvShiftRow_ShiftRow_aux {s : Nat} (hs : s < 2 ^ 64) :
    InvShiftRow (ShiftRow s) = s := by
  rw [ShiftRow, InvShiftRow]
  obtain ⟨e0, e1, e2, e3⟩ := row_extract (_rotl ((s >>> 48) &&& 0xffff) 13)
    (_rotl ((s >>> 32) &&& 0xffff) 12) (_rotl ((s >>> 16) &&& 0xffff) 1) (s &&& 0xffff)
    (rotl_lt _ _) (rotl_lt _ _) (rotl_lt _ _) (mask16_lt _)
  rw [e0, e1, e2, e3,
    rotr_rotl (mask16_lt _) (by norm_num) (by norm_num),
    rotr_rotl (mask16_lt _) (by norm_num) (by norm_num),
    rotr_rotl (mask16_lt _) (by norm_num) (by norm_num)]
  exact row_recompose hs

lemma bit_and_one (x k : Nat) : (x >>> k) &&& 1 = (x.testBit k).toNat := by
  rw [Nat.and_one_is_mod, Nat.shiftRight_eq_div_pow, Nat.testBit_to_div_mod]
  rcases Nat.mod_two_eq_zero_or_one (x / 2 ^ k) with h | h <;> simp [h]

lemma toNat_shiftLeft_testBit (b : Bool) (p k : Nat) :
    ((b.toNat) <<< p).testBit k = (decide (k = p) && b) := by
  cases b with
  | false => simp
  | true =>
    have : (true.toNat : Nat) = 1 := rfl
    rw [this, Nat.one_shiftLeft, Nat.testBit_two_pow]
    simp [eq_comm]

lemma colOut_testBit (O n k : Nat) :
    (colOut O n).testBit k =
      ((decide (k = n + 48) && O.testBit 0) || (decide (k = n + 32) && O.testBit 1) ||
       (decide (k = n + 16) && O.testBit 2) || (decide (k = n) && O.testBit 3)) := by
  have h0 : O &&& 1 = (O.testBit 0).toNat := by
    have := bit_and_one O 0
    simpa using this
  have h1 : (O >>> 1) &&& 1 = (O.testBit 1).toNat := bit_and_one O 1
  have h2 : (O >>> 2) &&& 1 = (O.testBit 2).toNat := bit_and_one O 2
  have h3 : (O >>> 3) &&& 1 = (O.testBit 3).toNat := bit_and_one O 3
  rw [colOut, h0, h1, h2, h3]
  simp only [Nat.testBit_or, toNat_shiftLeft_testBit]

lemma foldl_or_testBit (g : Nat → Nat) (l : List Nat) (init k : Nat) :
    (l.foldl (fun o n => o ||| g n) init).testBit k =
      (init.testBit k || l.any (fun n => (g n).testBit k)) := by
  induction l generalizing init with
  | nil => simp
  | cons m l ih => simp [List.foldl_cons, ih, Nat.testBit_or, Bool.or_assoc]

lemma any_single {l : List Nat} {f : Nat → Bool} {n : Nat} (hnd : l.Nodup) (hn : n ∈ l)
    (h : ∀ m ∈ l, m ≠ n → f m = false) : l.any f = f n := by
  induction l with
  | nil => cases hn
  | cons m l ih =>
    rcases List.mem_cons.mp hn with rfl | hn'
    · have : l.any f = false := by
        apply List.any_eq_false.mpr
        intro m hm
        have hne : m ≠ n := fun hmn => (List.nodup_cons.mp hnd).1 (hmn ▸ hm)
        simp [h m (List.mem_cons_of_mem _ hm) hne]
      simp [this]
    · have hmn : m ≠ n := fun hmn => (List.nodup_cons.mp hnd).1 (hmn ▸ hn')
      have : f m = false := h m (List.mem_cons_self _ _) hmn
      simp [this, ih (List.nodup_cons.mp hnd).2 hn' (fun m' hm' => h m' (List.mem_cons_of_mem _ hm'))]

lemma colIn_sum (s n : Nat) :
    colIn s n = 8 * (s.testBit n).toNat + 4 * (s.testBit (n + 16)).toNat +
      2 * (s.testBit (n + 32)).toNat + (s.testBit (n + 48)).toNat := by
  rw [colIn, bit_and_one, bit_and_one, bit_and_one, bit_and_one]
  have t1 : ((s.testBit (n + 16)).toNat : Nat) < 2 ^ 1 := by
    cases s.testBit (n + 16) <;> simp
  have t2 : ((s.testBit (n + 32)).toNat : Nat) < 2 ^ 1 := by
    cases s.testBit (n + 32) <;> simp
  have t3 : ((s.testBit (n + 48)).toNat : Nat) < 2 ^ 1 := by
    cases s.testBit (n + 48) <;> simp
  rw [or_shiftLeft_add _ t1, or_shiftLeft_add _ t2, or_shiftLeft_add _ t3]
  ring

lemma colIn_lt (s n : Nat) : colIn s n < 16 := by
  rw [colIn_sum]
  have t0 : ((s.testBit n).toNat : Nat) ≤ 1 := Bool.toNat_le _
  have t1 : ((s.testBit (n + 16)).toNat : Nat) ≤ 1 := Bool.toNat_le _
  have t2 : ((s.testBit (n + 32)).toNat : Nat) ≤ 1 := Bool.toNat_le _
  have t3 : ((s.testBit (n + 48)).toNat : Nat) ≤ 1 := Bool.toNat_le _
  omega

lemma nib_bits : ∀ c0 c1 c2 c3 : Bool,
    ((8 * c0.toNat + 4 * c1.toNat + 2 * c2.toNat + c3.toNat).testBit 0 = c3) ∧
    ((8 * c0.toNat + 4 * c1.toNat + 2 * c2.toNat + c3.toNat).testBit 1 = c2) ∧
    ((8 * c0.toNat + 4 * c1.toNat + 2 * c2.toNat + c3.toNat).testBit 2 = c1) ∧
    ((8 * c0.toNat + 4 * c1.toNat + 2 * c2.toNat + c3.toNat).testBit 3 = c0) := by decide

lemma nib_recompose : ∀ O < 16,
    8 * (Nat.testBit O 3).toNat + 4 * (Nat.testBit O 2).toNat +
      2 * (Nat.testBit O 1).toNat + (Nat.testBit O 0).toNat = O := by decide

lemma getD_lt_16 {tbl : List Nat} (htbl : ∀ v < 16, tbl.getD v 0 < 16) (c : Nat) (hc : c < 16) :
    tbl.getD c 0 < 16 := htbl c hc

lemma SBOX_entries : ∀ v < 16, SBOX.getD v 0 < 16 := by decide

lemma ISBOX_entries : ∀ v < 16, ISBOX.getD v 0 < 16 := by decide

lemma ISBOX_SBOX : ∀ c < 16, ISBOX.getD (SBOX.getD c 0) 0 = c := by decide

lemma subst_testBit (tbl : List Nat) (s n j : Nat) (hn : n < 16) (hj : j < 4) :
    (subst tbl s).testBit (n + 16 * j) = (tbl.getD (colIn s n) 0).testBit (3 - j) := by
  rw [subst, foldl_or_testBit]
  have hnodup : (List.range 16).Nodup := List.nodup_range 16
  have hmem : n ∈ List.range 16 := List.mem_range.mpr hn
  have hother : ∀ m ∈ List.range 16, m ≠ n →
      (colOut (tbl.getD (colIn s m) 0) m).testBit (n + 16 * j) = false := by
    intro m hm hne
    have hm16 : m < 16 := List.mem_range.mp hm
    rw [colOut_testBit]
    simp [show n + 16 * j ≠ m + 48 by omega, show n + 16 * j ≠ m + 32 by omega,
      show n + 16 * j ≠ m + 16 by omega, show n + 16 * j ≠ m by omega]
  rw [any_single hnodup hmem hother, colOut_testBit]
  interval_cases j
  · simp [show ¬ (n + 16 * 0 = n + 48) by omega, show ¬ (n + 16 * 0 = n + 32) by omega,
      show ¬ (n + 16 * 0 = n + 16) by omega, show n + 16 * 0 = n by omega]
  · simp [show ¬ (n + 16 * 1 = n + 48) by omega, show ¬ (n + 16 * 1 = n + 32) by omega,
      show n + 16 * 1 = n + 16 by omega, show ¬ (n + 16 * 1 = n) by omega]
  · simp [show ¬ (n + 16 * 2 = n + 48) by omega, show n + 16 * 2 = n + 32 by omega,
      show ¬ (n + 16 * 2 = n + 16) by omega, show ¬ (n + 16 * 2 = n) by omega]
  · simp [show n + 16 * 3 = n + 48 by omega, show ¬ (n + 16 * 3 = n + 32) by omega,
      show ¬ (n + 16 * 3 = n + 16) by omega, show ¬ (n + 16 * 3 = n) by omega]

lemma single_shift_lt {x p k : Nat} (hx : x ≤ 1) (hp : p < k) : x <<< p < 2 ^ k := by
  rw [Nat.shiftLeft_eq]
  calc x * 2 ^ p ≤ 1 * 2 ^ p := Nat.mul_le_mul_right _ hx
    _ = 2 ^ p := Nat.one_mul _
    _ < 2 ^ k := Nat.pow_lt_pow_right (by norm_num) hp

lemma colOut_lt {O n : Nat} (hn : n < 16) : colOut O n < 2 ^ 64 := by
  rw [colOut]
  have h1 : O &&& 1 ≤ 1 := Nat.and_le_right
  have h2 : (O >>> 1) &&& 1 ≤ 1 := Nat.and_le_right
  have h3 : (O >>> 2) &&& 1 ≤ 1 := Nat.and_le_right
  have h4 : (O >>> 3) &&& 1 ≤ 1 := Nat.and_le_right
  exact Nat.or_lt_two_pow
    (Nat.or_lt_two_pow
      (Nat.or_lt_two_pow (single_shift_lt h1 (by omega)) (single_shift_lt h2 (by omega)))
      (single_shift_lt h3 (by omega)))
    (single_shift_lt h4 (by omega))

lemma subst_lt (tbl : List Nat) (s : Nat) : subst tbl s < 2 ^ 64 := by
  rw [subst]
  have main : ∀ (l : List Nat) (init : Nat), init < 2 ^ 64 → (∀ n ∈ l, n < 16) →
      (l.foldl (fun o n => o ||| colOut (tbl.getD (colIn s n) 0) n) init) < 2 ^ 64 := by
    intro l
    induction l with
    | nil => intro init h _; exact h
    | cons m l ih =>
      intro init h hl
      rw [List.foldl_cons]
      exact ih _ (Nat.or_lt_two_pow h (colOut_lt (hl m (List.mem_cons_self _ _))))
        (fun n hn => hl n (List.mem_cons_of_mem _ hn))
  exact main _ 0 (by norm_num) (fun n hn => List.mem_range.mp hn)

lemma colIn_testBit_eq (s n j : Nat) (hj : j < 4) :
    (colIn s n).testBit (3 - j) = s.testBit (n + 16 * j) := by
  rw [colIn_sum]
  obtain ⟨b0, b1, b2, b3⟩ := nib_bits (s.testBit n) (s.testBit (n + 16)) (s.testBit (n + 32))
    (s.testBit (n + 48))
  interval_cases j
  · simpa using b3
  · simpa using b2
  · simpa using b1
  · simpa using b0

lemma InvSubColumn_SubColumn_aux {s : Nat} (hs : s < 2 ^ 64) :
    InvSubColumn (SubColumn s) = s := by
  apply Nat.eq_of_testBit_eq; intro k
  by_cases hk : k < 64
  · have hkeq : k = k % 16 + 16 * (k / 16) := by omega
    have hn : k % 16 < 16 := by omega
    have hj : k / 16 < 4 := by omega
    rw [hkeq, InvSubColumn, subst_testBit ISBOX _ _ _ hn hj]
    have hcol : colIn (SubColumn s) (k % 16) = SBOX.getD (colIn s (k % 16)) 0 := by
      rw [colIn_sum]
      have e0 : (SubColumn s).testBit (k % 16) =
          (SBOX.getD (colIn s (k % 16)) 0).testBit 3 := by
        have := subst_testBit SBOX s (k % 16) 0 hn (by norm_num)
        simpa using this
      have e1 : (SubColumn s).testBit (k % 16 + 16) =
          (SBOX.getD (colIn s (k % 16)) 0).testBit 2 := by
        have := subst_testBit SBOX s (k % 16) 1 hn (by norm_num)
        simpa using this
      have e2 : (SubColumn s).testBit (k % 16 + 32) =
          (SBOX.getD (colIn s (k % 16)) 0).testBit 1 := by
        have := subst_testBit SBOX s (k % 16) 2 hn (by norm_num)
        simpa using this
      have e3 : (SubColumn s).testBit (k % 16 + 48) =
          (SBOX.getD (colIn s (k % 16)) 0).testBit 0 := by
        have := subst_testBit SBOX s (k % 16) 3 hn (by norm_num)
        simpa using this
      rw [e0, e1, e2, e3]
      exact nib_recompose _ (SBOX_entries _ (colIn_lt s (k % 16)))
    rw [hcol, ISBOX_SBOX _ (colIn_lt s (k % 16)), colIn_testBit_eq s (k % 16) (k / 16) hj]
  · have h1 : (InvSubColumn (SubColumn s)).testBit k = false :=
      hi_bits (subst_lt ISBOX _) k (by omega)
    have h2 : s.testBit k = false := hi_bits hs k (by omega)
    rw [h1, h2]

/-- C8: on every 64-bit state, the RECTANGLE column S-box layer and the row-rotation
layer are inverted by their `ISBOX`/right-rotation counterparts:
`InvSubColumn (SubColumn x) = x` and `InvShiftRow (ShiftRow x) = x`. -/
theorem rectangle_roundtrip (x : Nat) (hx : x < 2 ^ 64) :
    InvSubColumn (SubColumn x) = x ∧ InvShiftRow (ShiftRow x) = x :=
  ⟨InvSubColumn_SubColumn_aux hx, InvShiftRow_ShiftRow_aux hx⟩

/-- Witness for C8 at the concrete state `0x0123456789abcdef`. -/
theorem rectangle_roundtrip_witness :
    (0x0123456789abcdef : Nat) < 2 ^ 64 ∧
      (InvSubColumn (SubColumn 0x0123456789abcdef) = 0x0123456789abcdef ∧
       InvShiftRow (ShiftRow 0x0123456789abcdef) = 0x0123456789abcdef) :=
  ⟨by norm_num, rectangle_roundtrip 0x0123456789abcdef (by norm_num)⟩

end Rectangle

/-! ## LAT builder (GIFT/branch-bound/analysis.cpp = PRESENT/analysis.cpp) -/

/-- `approx_t` (analysis.cpp): one linear approximation record. `corr` holds the
signed correlation, or its square after `make_approximations_elp`. -/
structure approx_t where
  input : Nat
  output : Nat
  weight : Nat
  corr : ℚ
deriving DecidableEq

/-- `hits` (approximate_sbox inner loop): the number of inputs `x ∈ [0,16)` with
`parity(parin & x) = parity(parout & S[x])`. -/
def hits (S : Fin 16 → Fin 16) (parin parout : Nat) : Nat :=
  ((List.finRange 16).filter
    (fun x => parity (parin &&& x.val) = parity (parout &&& (S x).val))).length

/-- The correlation `2*(hits/16) - 1` computed by `approximate_sbox`. -/
def corrQ (S : Fin 16 → Fin 16) (parin parout : Nat) : ℚ :=
  2 * ((hits S parin parout : ℚ) / 16) - 1

/-- The forward bucket of `approximate_sbox` before sorting/pruning: for input parity
`parin`, records for `parout = 0..15` in push order. -/
def forward_raw (S : Fin 16 → Fin 16) (parin : Nat) : List approx_t :=
  (List.range 16).map (fun parout =>
    { input := parin, output := parout, weight := weight parout, corr := corrQ S parin parout })

/-- The backward bucket of `approximate_sbox` before sorting/pruning: for bucket index
`parout`, records with output `parin = 0..15` in push order. -/
def backward_raw (S : Fin 16 → Fin 16) (parout : Nat) : List approx_t :=
  (List.range 16).map (fun parin =>
    { input := parout, output := parin, weight := weight parin, corr := corrQ S parin parout })

/-- The comparison used by the `vsort` lambda of `approximate_sbox`:
`a` may precede `b` when `|b.corr| ≤ |a.corr|` (descending by magnitude). -/
def approxLe (a b : approx_t) : Prop := |b.corr| ≤ |a.corr|

instance : DecidableRel approxLe := fun a b => inferInstanceAs (Decidable (|b.corr| ≤ |a.corr|))

instance : IsTotal approx_t approxLe := ⟨fun a b => le_total _ _⟩

instance : IsTrans approx_t approxLe := ⟨fun _ _ _ hab hbc => le_trans hbc hab⟩

/-- The `vsort` lambda of `approximate_sbox`: sort descending by `|corr|`
(`std::sort` leaves ties in an unspecified order; the embedding fixes the
stable insertion-sort order, which the spec allows). -/
def vsort (v : List approx_t) : List approx_t :=
  List.insertionSort approxLe v

/-- The `vremove` lambda of `approximate_sbox`: erase from the first record with
`|corr| < TINY` to the end. -/
def vremove : List approx_t → List approx_t
  | [] => []
  | a :: rest => if |a.corr| < TINY then [] else a :: vremove rest

/-- `approximate_sbox`, forward table: build, sort, prune. -/
def approximate_sbox_forward (S : Fin 16 → Fin 16) : Nat → List approx_t :=
  fun parin => vremove (vsort (forward_raw S parin))

/-- `approximate_sbox`, backward table: build, sort, prune. -/
def approximate_sbox_backward (S : Fin 16 → Fin 16) : Nat → List approx_t :=
  fun parout => vremove (vsort (backward_raw S parout))

/-- `make_approximations_elp` (analysis.cpp): square every correlation in place. -/
def make_approximations_elp (tbl : Nat → List approx_t) : Nat → List approx_t :=
  fun n => (tbl n).map (fun a => { a with corr := a.corr * a.corr })

lemma mem_vremove_sub {l : List approx_t} {a : approx_t} (h : a ∈ vremove l) : a ∈ l := by
  induction l with
  | nil => cases h
  | cons b l ih =>
    rw [vremove] at h
    by_cases hb : |b.corr| < TINY
    · simp [hb] at h
    · rw [if_neg hb] at h
      rcases List.mem_cons.mp h with rfl | h'
      · exact List.mem_cons_self _ _
      · exact List.mem_cons_of_mem _ (ih h')

lemma mem_vremove_not_tiny {l : List approx_t} {a : approx_t} (h : a ∈ vremove l) :
    ¬ |a.corr| < TINY := by
  induction l with
  | nil => cases h
  | cons b l ih =>
    rw [vremove] at h
    by_cases hb : |b.corr| < TINY
    · simp [hb] at h
    · rw [if_neg hb] at h
      rcases List.mem_cons.mp h with rfl | h'
      · exact hb
      · exact ih h'

lemma vsort_perm (v : List approx_t) : List.Perm (vsort v) v := List.perm_insertionSort _ v

lemma mem_vsort {v : List approx_t} {a : approx_t} : a ∈ vsort v ↔ a ∈ v :=
  (vsort_perm v).mem_iff

lemma vsort_sorted (v : List approx_t) :
    (vsort v).Pairwise (fun a b => |b.corr| ≤ |a.corr|) :=
  List.sorted_insertionSort approxLe v

/-! ### Parseval for the pruned forward table (C5) -/

/-- The sign `(-1)^parity n`, used to analyze the correlation sums. -/
def sgn (n : Nat) : ℤ := if parity n = 0 then 1 else -1

lemma parity01 (n : Nat) : parity n = 0 ∨ parity n = 1 := by
  rw [parity]
  simp only [Nat.and_one_is_mod]
  omega

lemma sgn_mul_self (n : Nat) : sgn n * sgn n = 1 := by
  rw [sgn]; split <;> ring

lemma sgn_mul_eq_ite (a b : Nat) :
    sgn a * sgn b = if parity a = parity b then 1 else -1 := by
  rcases parity01 a with ha | ha <;> rcases parity01 b with hb | hb <;>
    simp [sgn, ha, hb]

lemma sum_pm {X : Type} (l : List X) (p : X → Bool) :
    ((l.map (fun x => if p x then (1 : ℤ) else -1)).sum) = 2 * (l.filter p).length - l.length := by
  induction l with
  | nil => simp
  | cons a l ih =>
    by_cases h : p a <;> simp [h, ih, List.filter_cons] <;> push_cast <;> ring

lemma Tz_eq (S : Fin 16 → Fin 16) (parin parout : Nat) :
    2 * (hits S parin parout : ℤ) - 16 =
      ∑ x : Fin 16, sgn (parin &&& x.val) * sgn (parout &&& (S x).val) := by
  have hterm : ∀ x : Fin 16,
      sgn (parin &&& x.val) * sgn (parout &&& (S x).val) =
        if (parity (parin &&& x.val) = parity (parout &&& (S x).val) : Bool) then (1 : ℤ)
        else -1 := by
    intro x
    rw [sgn_mul_eq_ite]
    by_cases h : parity (parin &&& x.val) = parity (parout &&& (S x).val) <;> simp [h]
  rw [Finset.sum_congr rfl (fun x _ => hterm x), Fin.sum_univ_def, sum_pm, hits]
  simp

lemma char_sum_list : ∀ w < 16,
    ((List.range 16).map (fun b => sgn (b &&& w))).sum = if w = 0 then (16 : ℤ) else 0 := by
  decide

lemma sgn_mult : ∀ b < 16, ∀ u < 16, ∀ v < 16,
    sgn (b &&& u) * sgn (b &&& v) = sgn (b &&& (u ^^^ v)) := by
  decide

lemma xor_eq_zero_iff : ∀ u < 16, ∀ v < 16, ((u ^^^ v = 0) ↔ u = v) := by
  decide

lemma xor_lt_16 : ∀ u < 16, ∀ v < 16, u ^^^ v < 16 := by
  decide

lemma list_range_map_sum {M : Type} [AddCommMonoid M] (n : Nat) (f : Nat → M) :
    ((List.range n).map f).sum = ∑ i in Finset.range n, f i := by
  induction n with
  | zero => simp
  | succ n ih => rw [List.range_succ, Finset.sum_range_succ, List.map_append, List.sum_append, ih]; simp

lemma parseval_int (S : Fin 16 → Fin 16) (hS : Function.Injective S) (parin : Nat) :
    ∑ b in Finset.range 16, (2 * (hits S parin b : ℤ) - 16) ^ 2 = 256 := by
  have step1 : ∀ b ∈ Finset.range 16, (2 * (hits S parin b : ℤ) - 16) ^ 2 =
      ∑ x : Fin 16, ∑ y : Fin 16,
        (sgn (parin &&& x.val) * sgn (parin &&& y.val)) *
          (sgn (b &&& ((S x).val ^^^ (S y).val))) := by
    intro b hb
    have hb16 : b < 16 := Finset.mem_range.mp hb
    rw [Tz_eq, sq, Finset.sum_mul_sum]
    apply Finset.sum_congr rfl
    intro x _
    apply Finset.sum_congr rfl
    intro y _
    rw [← sgn_mult b hb16 (S x).val (S x).isLt (S y).val (S y).isLt]
    ring
  rw [Finset.sum_congr rfl step1]
  rw [Finset.sum_comm]
  have step2 : ∀ x : Fin 16,
      (∑ b in Finset.range 16, ∑ y : Fin 16,
        (sgn (parin &&& x.val) * sgn (parin &&& y.val)) *
          (sgn (b &&& ((S x).val ^^^ (S y).val)))) = 16 := by
    intro x
    rw [Finset.sum_comm]
    have inner : ∀ y : Fin 16,
        (∑ b in Finset.range 16,
          (sgn (parin &&& x.val) * sgn (parin &&& y.val)) *
            (sgn (b &&& ((S x).val ^^^ (S y).val)))) =
        if y = x then 16 else 0 := by
      intro y
      rw [← Finset.mul_sum]
      have hw : (S x).val ^^^ (S y).val < 16 := xor_lt_16 _ (S x).isLt _ (S y).isLt
      have hchar : (∑ b in Finset.range 16, sgn (b &&& ((S x).val ^^^ (S y).val))) =
          if (S x).val ^^^ (S y).val = 0 then (16 : ℤ) else 0 := by
        rw [← list_range_map_sum]
        exact char_sum_list _ hw
      rw [hchar]
      by_cases hxy : y = x
      · subst hxy
        simp [sgn_mul_self]
      · have : ¬ ((S x).val ^^^ (S y).val = 0) := by
          intro h0
          have := (xor_eq_zero_iff _ (S x).isLt _ (S y).isLt).mp h0
          exact hxy (hS (Fin.val_injective this)).symm
        simp [this, hxy]
    rw [Finset.sum_congr rfl (fun y _ => inner y)]
    simp
  rw [Finset.sum_congr rfl (fun x _ => step2 x)]
  simp

lemma corrQ_cast (S : Fin 16 → Fin 16) (parin b : Nat) :
    corrQ S parin b = ((2 * (hits S parin b : ℤ) - 16 : ℤ) : ℚ) / 16 := by
  rw [corrQ]
  push_cast
  ring

lemma parseval_rat (S : Fin 16 → Fin 16) (hS : Function.Injective S) (parin : Nat) :
    ∑ b in Finset.range 16, (corrQ S parin b) ^ 2 = 1 := by
  have : ∀ b ∈ Finset.range 16, (corrQ S parin b) ^ 2 =
      (((2 * (hits S parin b : ℤ) - 16 : ℤ) : ℚ)) ^ 2 / 256 := by
    intro b _
    rw [corrQ_cast]
    ring
  rw [Finset.sum_congr rfl this, ← Finset.sum_div]
  have hz : (∑ b in Finset.range 16, (((2 * (hits S parin b : ℤ) - 16 : ℤ) : ℚ)) ^ 2) =
      ((∑ b in Finset.range 16, (2 * (hits S parin b : ℤ) - 16) ^ 2 : ℤ) : ℚ) := by
    push_cast
    rfl
  rw [hz, parseval_int S hS parin]
  norm_num

lemma hits_le (S : Fin 16 → Fin 16) (a b : Nat) : hits S a b ≤ 16 := by
  have h := List.length_filter_le
    (fun x : Fin 16 => decide (parity (a &&& x.val) = parity (b &&& (S x).val)))
    (List.finRange 16)
  simpa [hits] using h

lemma corrQ_small_eq_zero {S : Fin 16 → Fin 16} {a b : Nat} (h : |corrQ S a b| < TINY) :
    corrQ S a b = 0 := by
  by_cases h8 : hits S a b = 8
  · rw [corrQ, h8]
    norm_num
  · exfalso
    have hle : hits S a b ≤ 16 := hits_le S a b
    have hform : corrQ S a b = ((hits S a b : ℚ) - 8) / 8 := by
      rw [corrQ]; ring
    have habs : (1 : ℚ) / 8 ≤ |corrQ S a b| := by
      rw [hform, abs_div]
      rw [abs_of_nonneg (by norm_num : (0:ℚ) ≤ 8)]
      apply div_le_div_of_nonneg_right ?_ (by norm_num)
      rcases Nat.lt_or_ge (hits S a b) 8 with hlt | hge
      · have : (hits S a b : ℚ) ≤ 7 := by exact_mod_cast Nat.le_of_lt_succ hlt
        rw [abs_of_nonpos (by linarith)]
        linarith
      · have h9 : 9 ≤ hits S a b := by omega
        have : (9 : ℚ) ≤ (hits S a b : ℚ) := by exact_mod_cast h9
        rw [abs_of_nonneg (by linarith)]
        linarith
    have : TINY < 1 / 8 := by rw [TINY]; norm_num
    linarith

lemma forward_raw_mem {S : Fin 16 → Fin 16} {parin : Nat} {rec : approx_t}
    (h : rec ∈ forward_raw S parin) :
    rec.input = parin ∧ rec.output < 16 ∧ rec.corr = corrQ S parin rec.output := by
  rw [forward_raw] at h
  obtain ⟨b, hb, rfl⟩ := List.mem_map.mp h
  exact ⟨rfl, List.mem_range.mp hb, rfl⟩

lemma vremove_sumsq (l : List approx_t) (hsort : l.Pairwise (fun a b => |b.corr| ≤ |a.corr|))
    (hzero : ∀ e ∈ l, |e.corr| < TINY → e.corr = 0) :
    ((vremove l).map (fun r => r.corr ^ 2)).sum = (l.map (fun r => r.corr ^ 2)).sum := by
  induction l with
  | nil => rfl
  | cons a l ih =>
    rw [vremove]
    by_cases ha : |a.corr| < TINY
    · rw [if_pos ha]
      have hall : ∀ e ∈ a :: l, e.corr = 0 := by
        intro e he
        rcases List.mem_cons.mp he with rfl | he'
        · exact hzero e (List.mem_cons_self _ _) ha
        · apply hzero e he
          have := (List.pairwise_cons.mp hsort).1 e he'
          exact lt_of_le_of_lt this ha
      have : (List.map (fun r => r.corr ^ 2) (a :: l)).sum = 0 := by
        apply List.sum_eq_zero
        intro q hq
        obtain ⟨e, he, rfl⟩ := List.mem_map.mp hq
        rw [hall e he]
        ring
      rw [this]
      rfl
    · rw [if_neg ha]
      simp only [List.map_cons, List.sum_cons]
      rw [ih (List.pairwise_cons.mp hsort).2
        (fun e he hsmall => hzero e (List.mem_cons_of_mem _ he) hsmall)]

/-- C5: for every S-box that is a permutation of `[0,16)`, every row of the forward
table produced by `approximate_sbox` (sorted, pruned at `|corr| < TINY`) satisfies
Parseval exactly: the squares of the remaining correlations sum to `1`. -/
theorem approximate_sbox_parseval (S : Fin 16 → Fin 16) (hS : Function.Injective S)
    (parin : Nat) (hparin : parin < 16) :
    ((approximate_sbox_forward S parin).map (fun r => r.corr ^ 2)).sum = 1 := by
  rw [approximate_sbox_forward]
  have hzero : ∀ e ∈ vsort (forward_raw S parin), |e.corr| < TINY → e.corr = 0 := by
    intro e he hsmall
    obtain ⟨_, _, hcorr⟩ := forward_raw_mem (mem_vsort.mp he)
    rw [hcorr] at hsmall ⊢
    exact corrQ_small_eq_zero hsmall
  rw [vremove_sumsq _ (vsort_sorted _) hzero]
  have hperm : List.Perm ((vsort (forward_raw S parin)).map (fun r => r.corr ^ 2))
      ((forward_raw S parin).map (fun r => r.corr ^ 2)) :=
    (vsort_perm _).map _
  rw [hperm.sum_eq, forward_raw, List.map_map]
  have : ((List.range 16).map
      ((fun r : approx_t => r.corr ^ 2) ∘ (fun parout =>
        { input := parin, output := parout, weight := weight parout,
          corr := corrQ S parin parout : approx_t }))).sum =
      ((List.range 16).map (fun b => corrQ S parin b ^ 2)).sum := by
    rfl
  rw [this, list_range_map_sum, parseval_rat S hS parin]

/-- The GIFT S-box (`GIFT/branch-bound-faster/gift.cpp`) as a `Fin 16` map, used as a
concrete permutation instance. -/
def giftS (x : Fin 16) : Fin 16 :=
  ⟨[0x1, 0xa, 0x4, 0xc, 0x6, 0xf, 0x3, 0x9, 0x2, 0xd, 0xb, 0x7, 0x5, 0x0, 0x8, 0xe].getD x.val 0,
    by revert x; decide⟩

lemma giftS_injective : Function.Injective giftS := by decide

/-- Witness for C5: the GIFT S-box is a permutation, and row `parin = 1` of its pruned
forward table sums to 1 in square. -/
theorem approximate_sbox_parseval_witness :
    Function.Injective giftS ∧ (1 : Nat) < 16 ∧
      ((approximate_sbox_forward giftS 1).map (fun r => r.corr ^ 2)).sum = 1 :=
  ⟨giftS_injective, by norm_num, approximate_sbox_parseval giftS giftS_injective 1 (by norm_num)⟩

/-! ## Mask-search back-propagation (PRESENT/mask-search.cpp, PRESENT-MPI/mask-search.cpp) -/

/-- `back_propergate` (mask-search.cpp): walk the active nibbles of `pin` from slot `n`
up, choosing one record of `approx[val_in]` per active slot; at the leaf look up the
accumulated `pout` in `pre_masks` and weight by the accumulated `corr`.  The mask map
is embedded as `Nat → Option ℚ` (`find` = `none` when absent). -/
def back_propergate (approx : Nat → List approx_t) (pre_masks : Nat → Option ℚ)
    (pin pout : Nat) (corr : ℚ) (n : Nat) : ℚ :=
  if h : n < 16 then
    if (pin >>> (n * 4)) &&& 0xf = 0 then
      back_propergate approx pre_masks pin pout corr (n + 1)
    else
      ((approx ((pin >>> (n * 4)) &&& 0xf)).map (fun apx =>
        back_propergate approx pre_masks pin (pout ||| (apx.output <<< (n * 4)))
          (corr * apx.corr) (n + 1))).sum
  else
    match pre_masks pout with
    | none => 0
    | some q => q * corr
termination_by 16 - n
decreasing_by all_goals omega

/-- The combination space of the S-box-layer expander: all ways to choose one
approximation record per active nibble of `pin` from slot `n` up, each choice
tagged with its slot index. -/
def expanderChoices (approx : Nat → List approx_t) (pin : Nat) (n : Nat) :
    List (List (Nat × approx_t)) :=
  if h : n < 16 then
    if (pin >>> (n * 4)) &&& 0xf = 0 then
      expanderChoices approx pin (n + 1)
    else
      ((approx ((pin >>> (n * 4)) &&& 0xf)).map (fun apx =>
        (expanderChoices approx pin (n + 1)).map (fun rest => (n, apx) :: rest))).flatten
  else [[]]
termination_by 16 - n
decreasing_by all_goals omega

/-- The `pout` assembled by a choice combination: OR of outputs shifted into slots. -/
def choicePre (c : List (Nat × approx_t)) : Nat :=
  (c.map (fun p => p.2.output <<< (p.1 * 4))).foldr (· ||| ·) 0

/-- The correlation product of a choice combination. -/
def choiceCorr (c : List (Nat × approx_t)) : ℚ :=
  (c.map (fun p => p.2.corr)).prod

lemma back_propergate_eq_sum_aux (approx : Nat → List approx_t) (F : Nat → Option ℚ)
    (pin : Nat) :
    ∀ k n pout corr, 16 - n = k →
      back_propergate approx F pin pout corr n =
        ((expanderChoices approx pin n).map
          (fun c => ((F (pout ||| choicePre c)).getD 0) * (corr * choiceCorr c))).sum := by
  intro k
  induction k with
  | zero =>
    intro n pout corr hn
    have hn16 : ¬ (n < 16) := by omega
    rw [back_propergate, expanderChoices]
    simp only [hn16, dite_false]
    cases hF : F pout with
    | none => simp [choicePre, choiceCorr, hF]
    | some q => simp [choicePre, choiceCorr, hF]
  | succ k ih =>
    intro n pout corr hn
    by_cases hn16 : n < 16
    · rw [back_propergate, expanderChoices]
      simp only [hn16, dite_true]
      by_cases hval : (pin >>> (n * 4)) &&& 0xf = 0
      · rw [if_pos hval, if_pos hval]
        exact ih (n + 1) pout corr (by omega)
      · rw [if_neg hval, if_neg hval]
        rw [List.map_flatten, List.sum_flatten, List.map_map, List.map_map]
        congr 1
        apply List.map_congr_left
        intro apx _
        simp only [Function.comp_apply]
        rw [ih (n + 1) (pout ||| (apx.output <<< (n * 4))) (corr * apx.corr) (by omega),
          List.map_map]
        congr 1
        apply List.map_congr_left
        intro rest _
        simp only [Function.comp_apply, choicePre, choiceCorr, List.map_cons, List.foldr_cons,
          List.prod_cons]
        rw [← Nat.or_assoc]
        ring
    · omega

/-- C3: `back_propergate(bapprox, F, pin, 0, 1, 0)` returns the sum, over all ways of
choosing one backward approximation record per active nibble of `pin` (no weight cap),
of `F[pre] * Π corr`, where `pre` is the OR of the chosen outputs shifted into their
slot positions; combinations whose `pre` is not a key of `F` contribute 0. -/
theorem back_propergate_eq_sum (bapprox : Nat → List approx_t) (F : Nat → Option ℚ)
    (pin : Nat) (hpin : pin < 2 ^ 64) :
    back_propergate bapprox F pin 0 1 0 =
      ((expanderChoices bapprox pin 0).map
        (fun c => ((F (choicePre c)).getD 0) * choiceCorr c)).sum := by
  rw [back_propergate_eq_sum_aux bapprox F pin 16 0 0 1 (by omega)]
  congr 1
  apply List.map_congr_left
  intro c _
  rw [Nat.zero_or, one_mul]

/-- Witness for C3: a one-record table, frontier `{3 ↦ 2}`, `pin = 1`. -/
theorem back_propergate_eq_sum_witness :
    (1 : Nat) < 2 ^ 64 ∧
      back_propergate (fun v => if v = 1 then [⟨1, 3, 2, 1/2⟩] else []) 
          (fun m => if m = 3 then some 2 else none) 1 0 1 0 =
        ((expanderChoices (fun v => if v = 1 then [⟨1, 3, 2, 1/2⟩] else []) 1 0).map
          (fun c => ((if choicePre c = 3 then some (2:ℚ) else none).getD 0) * choiceCorr c)).sum :=
  ⟨by norm_num,
    back_propergate_eq_sum (fun v => if v = 1 then [⟨1, 3, 2, 1/2⟩] else [])
      (fun m => if m = 3 then some 2 else none) 1 (by norm_num)⟩

/-! ## C7: output-0 records never reach an active slot of the expander -/

lemma hits_output_zero (S : Fin 16 → Fin 16) (v : Nat) :
    hits S v 0 = ((List.finRange 16).filter (fun x : Fin 16 => parity (v &&& x.val) = 0)).length := by
  rw [hits]
  congr 1
  apply List.filter_congr
  intro x _
  rw [Nat.zero_and, show parity 0 = 0 from rfl]

lemma hits_output_zero_balanced : ∀ v < 16, 0 < v →
    ((List.finRange 16).filter (fun x : Fin 16 => parity (v &&& x.val) = 0)).length = 8 := by
  decide

lemma corrQ_output_zero {S : Fin 16 → Fin 16} {v : Nat} (hv : 0 < v) (hv16 : v < 16) :
    corrQ S v 0 = 0 := by
  rw [corrQ, hits_output_zero, hits_output_zero_balanced v hv16 hv]
  norm_num

lemma TINY_pos : (0 : ℚ) < TINY := by rw [TINY]; norm_num

/-- C7: for a permutation S-box, the pruned ELP table holds no record with output
mask 0 in any bucket `v ≠ 0`; consequently no combination visited by the S-box-layer
expander chooses an output-0 record for an active slot. -/
theorem expander_skips_output_zero (S : Fin 16 → Fin 16) (hS : Function.Injective S) :
    (∀ v, 0 < v → v < 16 →
      ∀ rec ∈ make_approximations_elp (approximate_sbox_forward S) v, rec.output ≠ 0) ∧
    (∀ pin n c, c ∈ expanderChoices (make_approximations_elp (approximate_sbox_forward S)) pin n →
      ∀ p ∈ c, p.2.output ≠ 0) := by
  have htbl : ∀ v, 0 < v → v < 16 →
      ∀ rec ∈ make_approximations_elp (approximate_sbox_forward S) v, rec.output ≠ 0 := by
    intro v hv hv16 rec hrec hout
    rw [make_approximations_elp] at hrec
    obtain ⟨rec0, hrec0, rfl⟩ := List.mem_map.mp hrec
    simp only at hout
    have hnotiny := mem_vremove_not_tiny hrec0
    have hraw := mem_vsort.mp (mem_vremove_sub hrec0)
    obtain ⟨_, _, hcorr⟩ := forward_raw_mem hraw
    rw [hcorr, hout, corrQ_output_zero hv hv16] at hnotiny
    simp [TINY_pos] at hnotiny
  refine ⟨htbl, ?_⟩
  intro pin n
  have main : ∀ k n, 16 - n = k →
      ∀ c ∈ expanderChoices (make_approximations_elp (approximate_sbox_forward S)) pin n,
        ∀ p ∈ c, p.2.output ≠ 0 := by
    intro k
    induction k with
    | zero =>
      intro n hn c hc p hp
      have hn16 : ¬ (n < 16) := by omega
      rw [expanderChoices] at hc
      simp only [hn16, dite_false] at hc
      rcases List.mem_singleton.mp hc with rfl
      cases hp
    | succ k ih =>
      intro n hn c hc p hp
      by_cases hn16 : n < 16
      · rw [expanderChoices] at hc
        simp only [hn16, dite_true] at hc
        by_cases hval : (pin >>> (n * 4)) &&& 0xf = 0
        · rw [if_pos hval] at hc
          exact ih (n + 1) (by omega) c hc p hp
        · rw [if_neg hval] at hc
          obtain ⟨sub, hsub, hcsub⟩ := List.mem_flatten.mp hc
          obtain ⟨apx, hapx, rfl⟩ := List.mem_map.mp hsub
          obtain ⟨rest, hrest, rfl⟩ := List.mem_map.mp hcsub
          rcases List.mem_cons.mp hp with rfl | hp'
          · have hlt : (pin >>> (n * 4)) &&& 0xf < 16 := by
              have : (pin >>> (n * 4)) &&& 0xf ≤ 0xf := Nat.and_le_right
              omega
            exact htbl _ (Nat.pos_of_ne_zero hval) hlt apx hapx
          · exact ih (n + 1) (by omega) rest hrest p hp'
      · omega
  exact fun c hc => main (16 - n) n rfl c hc

/-- Witness for C7: the GIFT S-box instance, checking one bucket and one combination. -/
theorem expander_skips_output_zero_witness :
    Function.Injective giftS ∧
      ((∀ v, 0 < v → v < 16 →
        ∀ rec ∈ make_approximations_elp (approximate_sbox_forward giftS) v, rec.output ≠ 0) ∧
      (∀ pin n c,
          c ∈ expanderChoices (make_approximations_elp (approximate_sbox_forward giftS)) pin n →
        ∀ p ∈ c, p.2.output ≠ 0)) :=
  ⟨giftS_injective, expander_skips_output_zero giftS giftS_injective⟩

/-! ## MaskCollector (PRESENT-MPI/types.hpp) -/

/-- `MaskCollector` (types.hpp): a membership set plus a fitness min-heap.  The heap
is embedded as a list whose minimum-ELP element plays the role of `fitness.top()`.
The mutex only serializes access and has no sequential meaning. -/
structure MaskCollector where
  members : List Nat
  fitness : List (Nat × ℚ)

/-- `fitness.top()`: an element with minimal ELP (`CompareMask` orders by `second`,
greater-first, so the priority queue pops the smallest ELP; ties are
implementation-defined and the embedding fixes the first minimal element). -/
def heap_top : List (Nat × ℚ) → (Nat × ℚ)
  | [] => (0, 0)
  | e :: rest => rest.foldl (fun best x => if x.2 < best.2 then x else best) e

/-- `MaskCollector::add` (types.hpp lines 35-57). -/
def MaskCollector.add (Limit : Nat) (c : MaskCollector) (elem : Nat × ℚ) : MaskCollector :=
  if elem.1 ∈ c.members then c
  else if c.fitness.length ≥ Limit then
    let worst := heap_top c.fitness
    if worst.2 ≥ elem.2 then c
    else { members := elem.1 :: (c.members.erase worst.1),
           fitness := elem :: (c.fitness.erase worst) }
  else { members := elem.1 :: c.members, fitness := elem :: c.fitness }

/-- The collector state after a sequence of `add` operations from the empty collector. -/
def collectorRun (Limit : Nat) (ops : List (Nat × ℚ)) : MaskCollector :=
  ops.foldl (MaskCollector.add Limit) ⟨[], []⟩

/-- The three joint invariants of the collector. -/
def collectorInv (Limit : Nat) (c : MaskCollector) : Prop :=
  c.fitness.length ≤ Limit ∧ List.Perm c.members (c.fitness.map Prod.fst) ∧
    (c.fitness.map Prod.fst).Nodup

lemma heap_top_mem {l : List (Nat × ℚ)} (h : l ≠ []) : heap_top l ∈ l := by
  match l with
  | e :: rest =>
    rw [heap_top]
    clear h
    have main : ∀ (rest : List (Nat × ℚ)) (e : Nat × ℚ),
        rest.foldl (fun best x => if x.2 < best.2 then x else best) e ∈ e :: rest := by
      intro rest
      induction rest with
      | nil => intro e; exact List.mem_cons_self _ _
      | cons x rest ih =>
        intro e
        rw [List.foldl_cons]
        by_cases hx : x.2 < e.2
        · rw [if_pos hx]
          rcases List.mem_cons.mp (ih x) with h' | h'
          · rw [h']; exact List.mem_cons_of_mem _ (List.mem_cons_self _ _)
          · exact List.mem_cons_of_mem _ (List.mem_cons_of_mem _ h')
        · rw [if_neg hx]
          rcases List.mem_cons.mp (ih e) with h' | h'
          · rw [h']; exact List.mem_cons_self _ _
          · exact List.mem_cons_of_mem _ (List.mem_cons_of_mem _ h')
    exact main rest e

lemma map_fst_erase {l : List (Nat × ℚ)} {w : Nat × ℚ} (hnd : (l.map Prod.fst).Nodup)
    (hw : w ∈ l) : (l.erase w).map Prod.fst = (l.map Prod.fst).erase w.1 := by
  induction l with
  | nil => cases hw
  | cons a l ih =>
    by_cases haw : a = w
    · subst haw
      rw [List.erase_cons_head, List.map_cons, List.erase_cons_head]
    · have hw' : w ∈ l := by
        rcases List.mem_cons.mp hw with h' | h'
        · exact absurd h'.symm haw
        · exact h'
      have hfst : a.1 ≠ w.1 := by
        intro heq
        have : w.1 ∈ l.map Prod.fst := List.mem_map.mpr ⟨w, hw', rfl⟩
        rw [← heq] at this
        exact (List.nodup_cons.mp (by simpa using hnd)).1 this
      rw [List.erase_cons_tail (by simp [haw]), List.map_cons, List.map_cons,
        List.erase_cons_tail (by simp [hfst])]
      rw [ih (by simpa using (List.nodup_cons.mp (by simpa using hnd)).2) hw']

lemma add_preserves_inv (Limit : Nat) (hK : 0 < Limit) (c : MaskCollector)
    (hinv : collectorInv Limit c) (e : Nat × ℚ) :
    collectorInv Limit (MaskCollector.add Limit c e) := by
  obtain ⟨hlen, hperm, hnd⟩ := hinv
  rw [MaskCollector.add]
  by_cases hmem : e.1 ∈ c.members
  · rw [if_pos hmem]; exact ⟨hlen, hperm, hnd⟩
  · rw [if_neg hmem]
    have hnotfst : e.1 ∉ c.fitness.map Prod.fst := fun h => hmem (hperm.mem_iff.mpr h)
    by_cases hfull : c.fitness.length ≥ Limit
    · rw [if_pos hfull]
      have hKlen : c.fitness.length = Limit := le_antisymm hlen hfull
      by_cases hworse : (heap_top c.fitness).2 ≥ e.2
      · rw [if_pos hworse]; exact ⟨hlen, hperm, hnd⟩
      · rw [if_neg hworse]
        have hfit0 : c.fitness ≠ [] := by
          intro h0
          rw [h0] at hKlen
          simp at hKlen
          omega
        have hwmem : heap_top c.fitness ∈ c.fitness := heap_top_mem hfit0
        refine ⟨?_, ?_, ?_⟩
        · show (e :: (c.fitness.erase (heap_top c.fitness))).length ≤ Limit
          rw [List.length_cons, List.length_erase_of_mem hwmem]
          omega
        · show List.Perm (e.1 :: (c.members.erase (heap_top c.fitness).1))
            ((e :: (c.fitness.erase (heap_top c.fitness))).map Prod.fst)
          rw [List.map_cons, map_fst_erase hnd hwmem]
          exact (hperm.erase _).cons _
        · show ((e :: (c.fitness.erase (heap_top c.fitness))).map Prod.fst).Nodup
          rw [List.map_cons, map_fst_erase hnd hwmem]
          refine List.nodup_cons.mpr ⟨?_, hnd.erase _⟩
          intro h
          exact hnotfst (List.mem_of_mem_erase h)
    · rw [if_neg hfull]
      refine ⟨?_, ?_, ?_⟩
      · show (e :: c.fitness).length ≤ Limit
        rw [List.length_cons]
        omega
      · show List.Perm (e.1 :: c.members) ((e :: c.fitness).map Prod.fst)
        rw [List.map_cons]
        exact hperm.cons _
      · show ((e :: c.fitness).map Prod.fst).Nodup
        rw [List.map_cons]
        exact List.nodup_cons.mpr ⟨hnotfst, hnd⟩

lemma collectorRun_inv (Limit : Nat) (hK : 0 < Limit) (ops : List (Nat × ℚ)) :
    collectorInv Limit (collectorRun Limit ops) := by
  rw [collectorRun]
  have : ∀ (ops : List (Nat × ℚ)) (c : MaskCollector), collectorInv Limit c →
      collectorInv Limit (ops.foldl (MaskCollector.add Limit) c) := by
    intro ops
    induction ops with
    | nil => intro c h; exact h
    | cons e ops ih =>
      intro c h
      rw [List.foldl_cons]
      exact ih _ (add_preserves_inv Limit hK c h e)
  exact this ops ⟨[], []⟩ ⟨by simp, by simp, by simp⟩

/-- C4: after any sequence of `add` operations with limit `K`, the collector satisfies
the three joint invariants (heap size ≤ K; members = heap masks; no duplicate mask),
and the next `add` follows the discipline: a present mask changes nothing; below
capacity the pair is inserted; at capacity the pair is inserted with the minimum-ELP
element evicted exactly when the new ELP strictly exceeds the heap minimum. -/
theorem MaskCollector_add_spec (K : Nat) (hK : 0 < K) (ops : List (Nat × ℚ)) :
    ((collectorRun K ops).fitness.length ≤ K ∧
      List.Perm (collectorRun K ops).members ((collectorRun K ops).fitness.map Prod.fst) ∧
      ((collectorRun K ops).fitness.map Prod.fst).Nodup) ∧
    (∀ e : Nat × ℚ,
      (e.1 ∈ (collectorRun K ops).members → MaskCollector.add K (collectorRun K ops) e =
        collectorRun K ops) ∧
      (e.1 ∉ (collectorRun K ops).members → (collectorRun K ops).fitness.length < K →
        MaskCollector.add K (collectorRun K ops) e =
          ⟨e.1 :: (collectorRun K ops).members, e :: (collectorRun K ops).fitness⟩) ∧
      (e.1 ∉ (collectorRun K ops).members → (collectorRun K ops).fitness.length ≥ K →
        MaskCollector.add K (collectorRun K ops) e =
          if (heap_top (collectorRun K ops).fitness).2 < e.2 then
            ⟨e.1 :: ((collectorRun K ops).members.erase (heap_top (collectorRun K ops).fitness).1),
             e :: ((collectorRun K ops).fitness.erase (heap_top (collectorRun K ops).fitness))⟩
          else collectorRun K ops)) := by
  refine ⟨collectorRun_inv K hK ops, ?_⟩
  intro e
  refine ⟨?_, ?_, ?_⟩
  · intro hmem
    rw [MaskCollector.add, if_pos hmem]
  · intro hmem hlt
    rw [MaskCollector.add, if_neg hmem, if_neg (by omega)]
  · intro hmem hge
    rw [MaskCollector.add, if_neg hmem, if_pos hge]
    by_cases hcmp : (heap_top (collectorRun K ops).fitness).2 < e.2
    · rw [if_neg (by exact not_le.mpr hcmp), if_pos hcmp]
    · rw [if_pos (by exact not_lt.mp hcmp), if_neg hcmp]

/-- Witness for C4: limit 1, two insertions with the second evicting the first. -/
theorem MaskCollector_add_spec_witness :
    (0 : Nat) < 1 ∧
      (((collectorRun 1 [(5, 1/2), (7, 2/3)]).fitness.length ≤ 1 ∧
        List.Perm (collectorRun 1 [(5, 1/2), (7, 2/3)]).members
          ((collectorRun 1 [(5, 1/2), (7, 2/3)]).fitness.map Prod.fst) ∧
        ((collectorRun 1 [(5, 1/2), (7, 2/3)]).fitness.map Prod.fst).Nodup)) :=
  ⟨by norm_num, (MaskCollector_add_spec 1 (by norm_num) [(5, 1/2), (7, 2/3)]).1⟩

/-! ## GIFT enumerate engine (GIFT/enumerate/iterate.cpp) -/

/-- The GIFT bit-permutation table `PERM` (GIFT/branch-bound-faster/gift.cpp lines 18-83). -/
def PERM : List Nat :=
  [0x0000000000000001, 0x0000000000020000, 0x0000000400000000, 0x0008000000000000,
   0x0001000000000000, 0x0000000000000002, 0x0000000000040000, 0x0000000800000000,
   0x0000000100000000, 0x0002000000000000, 0x0000000000000004, 0x0000000000080000,
   0x0000000000010000, 0x0000000200000000, 0x0004000000000000, 0x0000000000000008,
   0x0000000000000010, 0x0000000000200000, 0x0000004000000000, 0x0080000000000000,
   0x0010000000000000, 0x0000000000000020, 0x0000000000400000, 0x0000008000000000,
   0x0000001000000000, 0x0020000000000000, 0x0000000000000040, 0x0000000000800000,
   0x0000000000100000, 0x0000002000000000, 0x0040000000000000, 0x0000000000000080,
   0x0000000000000100, 0x0000000002000000, 0x0000040000000000, 0x0800000000000000,
   0x0100000000000000, 0x0000000000000200, 0x0000000004000000, 0x0000080000000000,
   0x0000010000000000, 0x0200000000000000, 0x0000000000000400, 0x0000000008000000,
   0x0000000001000000, 0x0000020000000000, 0x0400000000000000, 0x0000000000000800,
   0x0000000000001000, 0x0000000020000000, 0x0000400000000000, 0x8000000000000000,
   0x1000000000000000, 0x0000000000002000, 0x0000000040000000, 0x0000800000000000,
   0x0000100000000000, 0x2000000000000000, 0x0000000000004000, 0x0000000080000000,
   0x0000000010000000, 0x0000200000000000, 0x4000000000000000, 0x0000000000008000]

/-- `permute` (gift.cpp lines 85-92): bit `i` of the input selects `PERM[i]`; the
loop's `x & 1; x >>= 1` is read here as testing bit `i` directly. -/
def permute (x : Nat) : Nat :=
  (List.range 64).foldl (fun out i => out ||| (if (x >>> i) &&& 1 ≠ 0 then PERM.getD i 0 else 0)) 0

/-- `fill` (GIFT/enumerate/iterate.cpp lines 8-52): weight-mode expander over the
forward ELP table; at each leaf the accumulated value is added to the pool under the
permuted output mask.  The pool (`std::unordered_map` with `+=`) is embedded as a
total function defaulting to 0. -/
def fillIt (approxes : Nat → List approx_t) (pool : Nat → ℚ) (value : ℚ) (pin pout : Nat)
    (max_weight pat_weight n : Nat) : Nat → ℚ :=
  if h : n < 16 then
    if (pin >>> (n * 4)) &&& 0xf = 0 then
      fillIt approxes pool value pin pout max_weight pat_weight (n + 1)
    else if pat_weight = max_weight then pool
    else
      (approxes ((pin >>> (n * 4)) &&& 0xf)).foldl
        (fun pl apx =>
          if pat_weight + 1 > max_weight then pl
          else fillIt approxes pl (value * apx.corr) pin (pout ||| (apx.output <<< (n * 4)))
            max_weight (pat_weight + 1) (n + 1))
        pool
  else
    Function.update pool (permute pout) (pool (permute pout) + value)
termination_by 16 - n
decreasing_by all_goals omega

/-- The multiset of `pout` values at the recursion leaves of `fillIt` — exactly the
program points where `assert(weight(pout) <= max_weight)` executes. -/
def fillItLeaves (approxes : Nat → List approx_t) (pin pout : Nat)
    (max_weight pat_weight n : Nat) : List Nat :=
  if h : n < 16 then
    if (pin >>> (n * 4)) &&& 0xf = 0 then
      fillItLeaves approxes pin pout max_weight pat_weight (n + 1)
    else if pat_weight = max_weight then []
    else
      ((approxes ((pin >>> (n * 4)) &&& 0xf)).map
        (fun apx =>
          if pat_weight + 1 > max_weight then []
          else fillItLeaves approxes pin (pout ||| (apx.output <<< (n * 4)))
            max_weight (pat_weight + 1) (n + 1))).flatten
  else [pout]
termination_by 16 - n
decreasing_by all_goals omega

/-- The forward ELP table of the GIFT S-box, as built by `approximate_sbox_forward`
followed by `make_approximations_elp` (GIFT/enumerate/bin_iter_elp.cpp main). -/
def giftElp : Nat → List approx_t := make_approximations_elp (approximate_sbox_forward giftS)

lemma shiftRight_one_nibble {n : Nat} (hn : 1 ≤ n) : (1 : Nat) >>> (n * 4) = 0 := by
  rw [Nat.shiftRight_eq_div_pow]
  apply Nat.div_eq_of_lt
  calc (1 : Nat) < 2 ^ 4 := by norm_num
    _ ≤ 2 ^ (n * 4) := Nat.pow_le_pow_right (by norm_num) (by omega)

lemma fillItLeaves_pin1_tail (tbl : Nat → List approx_t) (out mw pw : Nat) :
    ∀ k n, 16 - n = k → 1 ≤ n → fillItLeaves tbl 1 out mw pw n = [out] := by
  intro k
  induction k with
  | zero =>
    intro n hk _
    rw [fillItLeaves]
    have : ¬ (n < 16) := by omega
    simp [this]
  | succ k ih =>
    intro n hk hn
    rw [fillItLeaves]
    have h16 : n < 16 := by omega
    simp only [h16, dite_true, shiftRight_one_nibble hn]
    simpa using ih (n + 1) (by omega) (by omega)

lemma flatten_singleton_map {X Y : Type} (f : X → Y) (l : List X) :
    (l.map (fun x => [f x])).flatten = l.map f := by
  induction l with
  | nil => rfl
  | cons a l ih => simp [ih]

lemma fillItLeaves_pin1 (tbl : Nat → List approx_t) :
    fillItLeaves tbl 1 0 1 0 0 = (tbl 1).map (fun apx => apx.output) := by
  rw [fillItLeaves]
  have htail : ∀ apx : approx_t,
      (if 0 + 1 > 1 then []
       else fillItLeaves tbl 1 (0 ||| (apx.output <<< (0 * 4))) 1 (0 + 1) (0 + 1)) =
        [apx.output] := by
    intro apx
    rw [if_neg (by omega)]
    have := fillItLeaves_pin1_tail tbl (0 ||| (apx.output <<< (0 * 4))) 1 (0 + 1) 15 1
      (by norm_num) (by norm_num)
    rw [this]
    simp
  norm_num at htail ⊢
  rw [List.map_congr_left (fun apx _ => htail apx), flatten_singleton_map]

lemma mem_vremove_of_mem_sorted {l : List approx_t} {a : approx_t}
    (hsort : l.Pairwise (fun a b => |b.corr| ≤ |a.corr|)) (ha : a ∈ l)
    (hbig : ¬ |a.corr| < TINY) : a ∈ vremove l := by
  induction l with
  | nil => cases ha
  | cons b l ih =>
    rw [vremove]
    by_cases hb : |b.corr| < TINY
    · exfalso
      rcases List.mem_cons.mp ha with rfl | ha'
      · exact hbig hb
      · have := (List.pairwise_cons.mp hsort).1 a ha'
        exact hbig (lt_of_le_of_lt this hb)
    · rw [if_neg hb]
      rcases List.mem_cons.mp ha with rfl | ha'
      · exact List.mem_cons_self _ _
      · exact List.mem_cons_of_mem _ (ih (List.pairwise_cons.mp hsort).2 ha')

lemma hits_giftS_1_5 : hits giftS 1 5 = 6 := by decide

lemma corrQ_giftS_1_5 : corrQ giftS 1 5 = -(1/4) := by
  rw [corrQ, hits_giftS_1_5]
  norm_num

lemma rec5_in_giftElp : (⟨1, 5, weight 5, corrQ giftS 1 5 * corrQ giftS 1 5⟩ : approx_t) ∈ giftElp 1 := by
  rw [giftElp, make_approximations_elp]
  apply List.mem_map.mpr
  refine ⟨⟨1, 5, weight 5, corrQ giftS 1 5⟩, ?_, rfl⟩
  rw [approximate_sbox_forward]
  apply mem_vremove_of_mem_sorted (vsort_sorted _)
  · apply mem_vsort.mpr
    rw [forward_raw]
    apply List.mem_map.mpr
    exact ⟨5, by norm_num, rfl⟩
  · rw [corrQ_giftS_1_5, TINY, abs_neg, abs_of_pos (by norm_num : (0:ℚ) < 1/4)]
    norm_num

/-- C9 (refuted): at `max_weight = 1`, the leaf reached from `pin = 0x1` by choosing
the GIFT record `input=1, output=0x5` has accumulated mask `pout = 0x5` of bit-level
Hamming weight 2 > 1, violating `assert(weight(pout) <= max_weight)` in
`GIFT/enumerate/iterate.cpp`. -/
theorem fillIt_assert_violated :
    ∃ p, p ∈ fillItLeaves giftElp 1 0 1 0 0 ∧ 1 < weight p := by
  refine ⟨5, ?_, by decide⟩
  rw [fillItLeaves_pin1]
  apply List.mem_map.mpr
  exact ⟨⟨1, 5, weight 5, corrQ giftS 1 5 * corrQ giftS 1 5⟩, rec5_in_giftElp, rfl⟩

/-! ## GIFT branch-and-bound engine (GIFT/branch-bound-faster/search.cpp) -/

/-- The mutable search state of the branch-and-bound driver: the per-depth `bounds`
array and the persistent best `trail`, both owned by `branch_bound_search` and
mutated in place by `branch_bound_fill`. -/
structure BBState where
  bounds : Nat → ℚ
  trail : Nat → Nat

mutual

/-- `branch_bound_fill` (branch-bound-faster/search.cpp lines 21-117): the slot walk.
`box` scans the 16 S-box slots of `pin`; an active slot iterates its bucket of the
(per-box, already permuted) table via `branch_bound_recs`; at the leaf the trace is
extended and either the bound/trail is improved (`r+1 = rounds`) or the next round
starts from `pin ← pout`.  (The final `r + 1 < rounds` guard only closes the
arithmetically unreachable case `r + 1 > rounds`, where the C code would index
`bounds` out of range.) -/
def branch_bound_fill (tbl : Nat → Nat → List approx_t) (W rounds : Nat) (st : BBState)
    (trace : Nat → Nat) (elp : ℚ) (pin pout : Nat) (wt r box : Nat) : BBState :=
  if hbox : box < 16 then
    if (pin >>> (box * 4)) &&& 0xf = 0 then
      branch_bound_fill tbl W rounds st trace elp pin pout wt r (box + 1)
    else if wt ≥ W then st
    else branch_bound_recs tbl W rounds st trace elp pin pout wt r box
      (tbl box ((pin >>> (box * 4)) &&& 0xf))
  else
    let t2 := Function.update trace (r + 1) pout
    if r + 1 = rounds then
      if st.bounds rounds < elp then
        { bounds := Function.update st.bounds rounds elp,
          trail := fun i => if i ≤ rounds then t2 i else st.trail i }
      else st
    else if hr : r + 1 < rounds then
      branch_bound_fill tbl W rounds st t2 elp pout 0 0 (r + 1) 0
    else st
termination_by (rounds - r, 17 - box, 0)

/-- The record loop of `branch_bound_fill` (lines 54-81): for each approximation of
the active slot, prune by the bound test or recurse one slot further, threading the
state left to right. -/
def branch_bound_recs (tbl : Nat → Nat → List approx_t) (W rounds : Nat) (st : BBState)
    (trace : Nat → Nat) (elp : ℚ) (pin pout : Nat) (wt r box : Nat) :
    List approx_t → BBState
  | [] => st
  | apx :: rest =>
    if elp * apx.corr * st.bounds (rounds - (r + 1)) ≤ st.bounds rounds then
      branch_bound_recs tbl W rounds st trace elp pin pout wt r box rest
    else
      branch_bound_recs tbl W rounds
        (branch_bound_fill tbl W rounds st trace (elp * apx.corr) pin (pout ||| apx.output)
          (wt + 1) r (box + 1))
        trace elp pin pout wt r box rest
termination_by recs => (rounds - r, 16 - box, recs.length)

end

/-- `branch_bound_start` (branch-bound-faster/search.cpp lines 119-170): enumerate
start masks slot by slot while weight budget remains, and run the round-0 slot walk
on each non-zero leaf mask with a fresh trace (`trace[0] = pin`). -/
def branch_bound_start (tbl : Nat → Nat → List approx_t) (W rounds : Nat) (st : BBState)
    (pin : Nat) (index remain : Nat) : BBState :=
  if remain > 0 ∧ index < 16 then
    (List.range 16).foldl
      (fun s v =>
        branch_bound_start tbl W rounds s (pin ||| (v <<< (index * 4))) (index + 1)
          (if v = 0 then remain else remain - 1))
      st
  else if pin ≠ 0 then
    branch_bound_fill tbl W rounds st (Function.update (fun _ => 0) 0 pin) 1 pin 0 0 0 0
  else st
termination_by 16 - index
decreasing_by all_goals simp_wf <;> omega

/-- The list of start masks on which `branch_bound_start` runs the round-0 slot walk,
in visit order. -/
def branch_bound_startList (pin index remain : Nat) : List Nat :=
  if remain > 0 ∧ index < 16 then
    ((List.range 16).map
      (fun v =>
        branch_bound_startList (pin ||| (v <<< (index * 4))) (index + 1)
          (if v = 0 then remain else remain - 1))).flatten
  else if pin ≠ 0 then [pin] else []
termination_by 16 - index
decreasing_by all_goals simp_wf <;> omega

/-- `branch_bound_search` (branch-bound-faster/search.cpp lines 172-199): zero the
bounds, set `bounds[0] = 1`, then for `rounds = 1..R` seed
`bounds[rounds] = bounds[rounds-1] * 0.00390625` (= 2^-8 exactly) and run
`branch_bound_start` with `Weight = 4`. -/
def branch_bound_search (tbl : Nat → Nat → List approx_t) (R : Nat) : BBState :=
  (List.range R).foldl
    (fun st k =>
      branch_bound_start tbl 4 (k + 1)
        { st with bounds := Function.update st.bounds (k + 1) (st.bounds k * (1 / 256)) }
        0 0 4)
    { bounds := Function.update (fun _ => 0) 0 1, trail := fun _ => 0 }

/-- C2: in bound mode, a candidate record `apx` considered at round index `r` of a
`rounds`-round search with accumulated ELP `elp` is pruned (skipped without
recursion) exactly when `new_elp * bounds[rounds - (r+1)] ≤ bounds[rounds]` with
`new_elp = elp * apx.corr`; otherwise the walk recurses into the next slot with
`new_elp`, and the loop continues on the updated state. -/
theorem branch_bound_prune_iff (tbl : Nat → Nat → List approx_t) (W rounds : Nat)
    (st : BBState) (trace : Nat → Nat) (elp : ℚ) (pin pout : Nat) (wt r box : Nat)
    (apx : approx_t) (rest : List approx_t) :
    branch_bound_recs tbl W rounds st trace elp pin pout wt r box (apx :: rest) =
      if elp * apx.corr * st.bounds (rounds - (r + 1)) ≤ st.bounds rounds then
        branch_bound_recs tbl W rounds st trace elp pin pout wt r box rest
      else
        branch_bound_recs tbl W rounds
          (branch_bound_fill tbl W rounds st trace (elp * apx.corr) pin (pout ||| apx.output)
            (wt + 1) r (box + 1))
          trace elp pin pout wt r box rest := by
  simp only [branch_bound_recs]

/-! ### C6: the start-mask enumeration -/

lemma nibble_weight_go_zero : ∀ k, nibble_weight_go k 0 = 0
  | 0 => rfl
  | k + 1 => by
    rw [nibble_weight_go]
    simpa using nibble_weight_go_zero k

lemma nibble_weight_go_eq_zero_iff : ∀ k y, (nibble_weight_go k y = 0 ↔ y % 2 ^ (4 * k) = 0) := by
  intro k
  induction k with
  | zero => intro y; simp [nibble_weight_go, Nat.mod_one]
  | succ k ih =>
    intro y
    have hsplit : y % 2 ^ (4 * (k + 1)) = y % 16 + 16 * (y / 16 % 2 ^ (4 * k)) := by
      have h1 : (2 : Nat) ^ (4 * (k + 1)) = 16 * 2 ^ (4 * k) := by
        rw [show 4 * (k + 1) = 4 + 4 * k by omega, pow_add]
        norm_num
      rw [h1, Nat.mod_mul]
    have hand : y &&& 0xf = y % 16 := by
      have := Nat.and_pow_two_sub_one_eq_mod y 4
      norm_num at this
      exact this
    have hshift : y >>> 4 = y / 16 := by
      rw [Nat.shiftRight_eq_div_pow]
    rw [nibble_weight_go, hand, hshift]
    rw [hsplit]
    have hk := ih (y / 16)
    by_cases h0 : y % 16 = 0
    · rw [if_neg (by omega : ¬ (y % 16 ≠ 0))]
      omega
    · rw [if_pos h0]
      omega

lemma nibble_weight_go_ext : ∀ k j y, y < 2 ^ (4 * k) →
    nibble_weight_go (k + j) y = nibble_weight_go k y := by
  intro k
  induction k with
  | zero =>
    intro j y hy
    simp only [Nat.mul_zero, pow_zero, Nat.lt_one_iff] at hy
    subst hy
    rw [nibble_weight_go_zero, nibble_weight_go_zero]
  | succ k ih =>
    intro j y hy
    rw [show k + 1 + j = (k + j) + 1 by omega, nibble_weight_go, nibble_weight_go]
    congr 1
    apply ih
    rw [Nat.shiftRight_eq_div_pow]
    have h1 : (2 : Nat) ^ (4 * (k + 1)) = 2 ^ 4 * 2 ^ (4 * k) := by
      rw [show 4 * (k + 1) = 4 + 4 * k by omega, pow_add]
    apply Nat.div_lt_of_lt_mul
    rw [← h1]
    exact hy

lemma nibble_weight_go_fix {k₁ k₂ y : Nat} (hk : k₁ ≤ k₂) (hy : y < 2 ^ (4 * k₁)) :
    nibble_weight_go k₂ y = nibble_weight_go k₁ y := by
  rw [show k₂ = k₁ + (k₂ - k₁) by omega]
  exact nibble_weight_go_ext k₁ (k₂ - k₁) y hy

set_option maxHeartbeats 1000000 in
lemma nibble_weight_step {y : Nat} (hy : y < 2 ^ 64) :
    nibble_weight y = (if y &&& 0xf ≠ 0 then 1 else 0) + nibble_weight (y >>> 4) := by
  have h4 : y >>> 4 < 2 ^ (4 * 15) := by
    rw [Nat.shiftRight_eq_div_pow]
    apply Nat.div_lt_of_lt_mul
    calc y < 2 ^ 64 := hy
      _ = 2 ^ (4 * 15) * 2 ^ 4 := by norm_num
  rw [nibble_weight, nibble_weight, nibble_weight_go]
  congr 1
  rw [nibble_weight_go_fix (by omega : (15 : Nat) ≤ 16) h4]

lemma unique_decomp {X a b c d : Nat} (ha : a < X) (hc : c < X)
    (h : a + X * b = c + X * d) : a = c ∧ b = d := by
  have hX : 0 < X := by omega
  have h1 : (a + X * b) % X = a := by
    rw [Nat.add_mul_mod_self_left, Nat.mod_eq_of_lt ha]
  have h2 : (c + X * d) % X = c := by
    rw [Nat.add_mul_mod_self_left, Nat.mod_eq_of_lt hc]
  have h3 : (a + X * b) / X = b := by
    rw [Nat.add_mul_div_left _ _ hX, Nat.div_eq_of_lt ha, Nat.zero_add]
  have h4 : (c + X * d) / X = d := by
    rw [Nat.add_mul_div_left _ _ hX, Nat.div_eq_of_lt hc, Nat.zero_add]
  constructor
  · rw [← h1, ← h2, h]
  · rw [← h3, ← h4, h]

lemma or_low_add {pin v index : Nat} (hpin : pin < 2 ^ (4 * index)) :
    pin ||| (v <<< (index * 4)) = pin + 2 ^ (4 * index) * v := by
  rw [Nat.or_comm, show index * 4 = 4 * index by omega]
  rw [Rectangle.or_shiftLeft_add v hpin]
  omega

lemma pow_le_64 {index : Nat} (h : index ≤ 16) : (2 : Nat) ^ (4 * index) ≤ 2 ^ 64 :=
  Nat.pow_le_pow_right (by norm_num) (by omega)

lemma mod_split_nibble (p index : Nat) :
    p % 2 ^ (4 * (index + 1)) =
      p % 2 ^ (4 * index) + 2 ^ (4 * index) * (p / 2 ^ (4 * index) % 16) := by
  have h1 : (2 : Nat) ^ (4 * (index + 1)) = 2 ^ (4 * index) * 16 := by
    rw [show 4 * (index + 1) = 4 * index + 4 by omega, pow_add]
    norm_num
  rw [h1, Nat.mod_mul]

lemma nibble_of_shift (p index : Nat) :
    (p >>> (index * 4)) &&& 0xf = p / 2 ^ (4 * index) % 16 := by
  rw [Nat.shiftRight_eq_div_pow, show index * 4 = 4 * index by omega]
  have := Nat.and_pow_two_sub_one_eq_mod (p / 2 ^ (4 * index)) 4
  norm_num at this
  exact this

lemma shift_next (p index : Nat) :
    (p >>> (4 * index)) >>> 4 = p >>> (4 * (index + 1)) := by
  rw [show 4 * (index + 1) = 4 * index + 4 by omega, ← Nat.shiftRight_add]

lemma startList_mem_iff :
    ∀ k index remain pin, 16 - index = k → pin < 2 ^ (4 * index) → pin < 2 ^ 64 →
    ∀ p, (p ∈ branch_bound_startList pin index remain ↔
      (p ≠ 0 ∧ p < 2 ^ 64 ∧ p % 2 ^ (4 * index) = pin ∧
        nibble_weight (p >>> (4 * index)) ≤ remain)) := by
  intro k
  induction k with
  | zero =>
    intro index remain pin hk hpinX hpin64 p
    have hidx : 16 ≤ index := by omega
    rw [branch_bound_startList]
    rw [if_neg (by omega : ¬ (remain > 0 ∧ index < 16))]
    have hle : (2 : Nat) ^ 64 ≤ 2 ^ (4 * index) := Nat.pow_le_pow_right (by norm_num) (by omega)
    constructor
    · intro hp
      by_cases hpin0 : pin ≠ 0
      · rw [if_pos hpin0] at hp
        rcases List.mem_singleton.mp hp with rfl
        refine ⟨hpin0, hpin64, Nat.mod_eq_of_lt (lt_of_lt_of_le hpin64 hle), ?_⟩
        have : p >>> (4 * index) = 0 := by
          rw [Nat.shiftRight_eq_div_pow]
          exact Nat.div_eq_of_lt (lt_of_lt_of_le hpin64 hle)
        rw [this, nibble_weight, nibble_weight_go_zero]
        omega
      · rw [if_neg hpin0] at hp
        cases hp
    · rintro ⟨hp0, hp64, hmod, _⟩
      have hpeq : p = pin := by
        rw [← hmod, Nat.mod_eq_of_lt (lt_of_lt_of_le hp64 hle)]
      subst hpeq
      rw [if_pos hp0]
      exact List.mem_singleton.mpr rfl
  | succ k ih =>
    intro index remain pin hk hpinX hpin64 p
    have hidx : index < 16 := by omega
    by_cases hrem : remain > 0
    · rw [branch_bound_startList, if_pos ⟨hrem, hidx⟩]
      have hX1 : (2 : Nat) ^ (4 * (index + 1)) = 2 ^ (4 * index) * 16 := by
        rw [show 4 * (index + 1) = 4 * index + 4 by omega, pow_add]
        norm_num
      have hstep : ∀ v, v < 16 →
          (pin ||| (v <<< (index * 4)) < 2 ^ (4 * (index + 1)) ∧
           pin ||| (v <<< (index * 4)) < 2 ^ 64) := by
        intro v hv
        rw [or_low_add hpinX]
        have hmul : 2 ^ (4 * index) * v + 2 ^ (4 * index) ≤ 2 ^ (4 * index) * 16 := by
          have h : 2 ^ (4 * index) * v + 2 ^ (4 * index) = 2 ^ (4 * index) * (v + 1) := by ring
          rw [h]
          exact Nat.mul_le_mul_left _ (by omega)
        have h64 : 2 ^ (4 * (index + 1)) ≤ 2 ^ 64 := pow_le_64 (by omega)
        rw [hX1] at h64 ⊢
        exact ⟨by omega, by omega⟩
      constructor
      · intro hp
        obtain ⟨sub, hsub, hpsub⟩ := List.mem_flatten.mp hp
        obtain ⟨v, hv, rfl⟩ := List.mem_map.mp hsub
        have hv16 : v < 16 := List.mem_range.mp hv
        obtain ⟨hlt1, hlt2⟩ := hstep v hv16
        rw [ih (index + 1) _ _ (by omega) hlt1 hlt2 p] at hpsub
        obtain ⟨hp0, hp64, hmod, hnw⟩ := hpsub
        rw [or_low_add hpinX] at hmod
        have hsplit := mod_split_nibble p index
        have huniq := unique_decomp (a := p % 2 ^ (4 * index)) (c := pin)
          (Nat.mod_lt _ (by positivity)) hpinX (by rw [← hsplit, hmod])
        refine ⟨hp0, hp64, huniq.1, ?_⟩
        have hnwstep : nibble_weight (p >>> (4 * index)) =
            (if (p >>> (4 * index)) &&& 0xf ≠ 0 then 1 else 0) +
              nibble_weight (p >>> (4 * (index + 1))) := by
          rw [← shift_next]
          exact nibble_weight_step (by
            rw [Nat.shiftRight_eq_div_pow]
            calc p / 2 ^ (4 * index) ≤ p := Nat.div_le_self _ _
              _ < 2 ^ 64 := hp64)
        have hvnib : (p >>> (4 * index)) &&& 0xf = v := by
          rw [show (4 : Nat) * index = index * 4 by omega, nibble_of_shift]
          omega
        rw [hnwstep, hvnib]
        by_cases hv0 : v = 0
        · subst hv0
          rw [if_pos rfl] at hnw
          rw [if_neg (by omega : ¬ (0 : Nat) ≠ 0)]
          omega
        · rw [if_neg hv0] at hnw
          rw [if_pos hv0]
          omega
      · rintro ⟨hp0, hp64, hmod, hnw⟩
        set v := (p >>> (index * 4)) &&& 0xf with hvdef
        have hv16 : v < 16 := by
          have : v ≤ 0xf := Nat.and_le_right
          omega
        apply List.mem_flatten.mpr
        refine ⟨branch_bound_startList (pin ||| (v <<< (index * 4))) (index + 1)
          (if v = 0 then remain else remain - 1), ?_, ?_⟩
        · apply List.mem_map.mpr
          exact ⟨v, List.mem_range.mpr hv16, rfl⟩
        · obtain ⟨hlt1, hlt2⟩ := hstep v hv16
          rw [ih (index + 1) _ _ (by omega) hlt1 hlt2 p]
          have hvval : v = p / 2 ^ (4 * index) % 16 := nibble_of_shift p index
          refine ⟨hp0, hp64, ?_, ?_⟩
          · rw [or_low_add hpinX, mod_split_nibble, hmod, ← hvval]
          · have hnwstep : nibble_weight (p >>> (4 * index)) =
                (if (p >>> (4 * index)) &&& 0xf ≠ 0 then 1 else 0) +
                  nibble_weight (p >>> (4 * (index + 1))) := by
              rw [← shift_next]
              exact nibble_weight_step (by
                rw [Nat.shiftRight_eq_div_pow]
                calc p / 2 ^ (4 * index) ≤ p := Nat.div_le_self _ _
                  _ < 2 ^ 64 := hp64)
            rw [hnwstep] at hnw
            rw [show (4 : Nat) * index = index * 4 by omega] at hnw
            by_cases hv0 : v = 0
            · rw [if_pos hv0]
              rw [← hvdef, if_neg (by omega : ¬ v ≠ 0)] at hnw
              omega
            · rw [if_neg hv0]
              rw [← hvdef, if_pos hv0] at hnw
              omega
    · rw [branch_bound_startList, if_neg (by omega : ¬ (remain > 0 ∧ index < 16))]
      have hrem0 : remain = 0 := by omega
      subst hrem0
      constructor
      · intro hp
        by_cases hpin0 : pin ≠ 0
        · rw [if_pos hpin0] at hp
          rcases List.mem_singleton.mp hp with rfl
          refine ⟨hpin0, hpin64, Nat.mod_eq_of_lt hpinX, ?_⟩
          have : p >>> (4 * index) = 0 := by
            rw [Nat.shiftRight_eq_div_pow]
            exact Nat.div_eq_of_lt hpinX
          rw [this, nibble_weight, nibble_weight_go_zero]
        · rw [if_neg hpin0] at hp
          cases hp
      · rintro ⟨hp0, hp64, hmod, hnw⟩
        have hnw0 : nibble_weight (p >>> (4 * index)) = 0 := by omega
        have hdivlt : p >>> (4 * index) < 2 ^ (4 * 16) := by
          rw [Nat.shiftRight_eq_div_pow]
          calc p / 2 ^ (4 * index) ≤ p := Nat.div_le_self _ _
            _ < 2 ^ 64 := hp64
          
        have := (nibble_weight_go_eq_zero_iff 16 (p >>> (4 * index))).mp hnw0
        have hzero : p >>> (4 * index) = 0 := by
          rw [← Nat.mod_eq_of_lt hdivlt]
          exact this
        have hplt : p < 2 ^ (4 * index) := by
          rw [Nat.shiftRight_eq_div_pow] at hzero
          exact (Nat.div_eq_zero_iff (by positivity)).mp hzero
        have hpeq : p = pin := by rw [← hmod, Nat.mod_eq_of_lt hplt]
        subst hpeq
        rw [if_pos hp0]
        exact List.mem_singleton.mpr rfl

lemma startList_nodup :
    ∀ k index remain pin, 16 - index = k → pin < 2 ^ (4 * index) → pin < 2 ^ 64 →
    (branch_bound_startList pin index remain).Nodup := by
  intro k
  induction k with
  | zero =>
    intro index remain pin hk hpinX hpin64
    rw [branch_bound_startList, if_neg (by omega : ¬ (remain > 0 ∧ index < 16))]
    by_cases hpin0 : pin ≠ 0
    · rw [if_pos hpin0]
      exact List.nodup_singleton pin
    · rw [if_neg hpin0]
      exact List.nodup_nil
  | succ k ih =>
    intro index remain pin hk hpinX hpin64
    by_cases hcond : remain > 0 ∧ index < 16
    · rw [branch_bound_startList, if_pos hcond]
      have hX1 : (2 : Nat) ^ (4 * (index + 1)) = 2 ^ (4 * index) * 16 := by
        rw [show 4 * (index + 1) = 4 * index + 4 by omega, pow_add]
        norm_num
      have hstep : ∀ v, v < 16 →
          (pin ||| (v <<< (index * 4)) < 2 ^ (4 * (index + 1)) ∧
           pin ||| (v <<< (index * 4)) < 2 ^ 64) := by
        intro v hv
        rw [or_low_add hpinX]
        have hmul : 2 ^ (4 * index) * v + 2 ^ (4 * index) ≤ 2 ^ (4 * index) * 16 := by
          have h : 2 ^ (4 * index) * v + 2 ^ (4 * index) = 2 ^ (4 * index) * (v + 1) := by ring
          rw [h]
          exact Nat.mul_le_mul_left _ (by omega)
        have h64 : 2 ^ (4 * (index + 1)) ≤ 2 ^ 64 := pow_le_64 (by omega)
        rw [hX1] at h64 ⊢
        exact ⟨by omega, by omega⟩
      apply List.nodup_flatten.mpr
      constructor
      · intro l hl
        obtain ⟨v, hv, rfl⟩ := List.mem_map.mp hl
        have hv16 : v < 16 := List.mem_range.mp hv
        obtain ⟨hlt1, hlt2⟩ := hstep v hv16
        exact ih (index + 1) _ _ (by omega) hlt1 hlt2
      · apply (List.pairwise_map).mpr
        have hne : List.Pairwise (fun a b : Nat => a ≠ b) (List.range 16) :=
          List.nodup_range 16
        apply List.Pairwise.imp_of_mem ?_ hne
        intro a b ha hb hab p hpa hpb
        have ha16 : a < 16 := List.mem_range.mp ha
        have hb16 : b < 16 := List.mem_range.mp hb
        obtain ⟨hlta1, hlta2⟩ := hstep a ha16
        obtain ⟨hltb1, hltb2⟩ := hstep b hb16
        rw [startList_mem_iff k (index + 1) _ _ (by omega) hlta1 hlta2 p] at hpa
        rw [startList_mem_iff k (index + 1) _ _ (by omega) hltb1 hltb2 p] at hpb
        have hmoda := hpa.2.2.1
        have hmodb := hpb.2.2.1
        rw [or_low_add hpinX] at hmoda hmodb
        have hXab : 2 ^ (4 * index) * a = 2 ^ (4 * index) * b := by omega
        exact hab (Nat.eq_of_mul_eq_mul_left (by positivity) hXab)
    · rw [branch_bound_startList, if_neg hcond]
      by_cases hpin0 : pin ≠ 0
      · rw [if_pos hpin0]
        exact List.nodup_singleton pin
      · rw [if_neg hpin0]
        exact List.nodup_nil

lemma start_eq_foldl (tbl : Nat → Nat → List approx_t) (W rounds : Nat) :
    ∀ k index remain pin st, 16 - index = k →
    branch_bound_start tbl W rounds st pin index remain =
      (branch_bound_startList pin index remain).foldl
        (fun s p =>
          branch_bound_fill tbl W rounds s (Function.update (fun _ => 0) 0 p) 1 p 0 0 0 0)
        st := by
  intro k
  induction k with
  | zero =>
    intro index remain pin st hk
    rw [branch_bound_start, branch_bound_startList,
      if_neg (by omega : ¬ (remain > 0 ∧ index < 16)),
      if_neg (by omega : ¬ (remain > 0 ∧ index < 16))]
    by_cases hpin0 : pin ≠ 0
    · rw [if_pos hpin0, if_pos hpin0]
      rfl
    · rw [if_neg hpin0, if_neg hpin0]
      rfl
  | succ k ih =>
    intro index remain pin st hk
    by_cases hcond : remain > 0 ∧ index < 16
    · rw [branch_bound_start, branch_bound_startList, if_pos hcond, if_pos hcond]
      rw [List.foldl_flatten, List.foldl_map]
      apply List.foldl_ext
      intro s v hv
      exact ih (index + 1) _ _ s (by omega)
    · rw [branch_bound_start, branch_bound_startList, if_neg hcond, if_neg hcond]
      by_cases hpin0 : pin ≠ 0
      · rw [if_pos hpin0, if_pos hpin0]
        rfl
      · rw [if_neg hpin0, if_neg hpin0]
        rfl

/-- C6: on the top-level call (`pin = 0`, `index = 0`, `remain = Weight`),
`branch_bound_start` is the fold of the round-0 fill over the list
`branch_bound_startList 0 0 Weight` of start masks; that list has no
duplicates, and a mask `p` appears in it exactly when `p ≠ 0`, `p` fits in
64 bits, and `p` has at most `Weight` non-zero nibbles — i.e. every such
input mask is tried exactly once. -/
theorem branch_bound_start_enumerates (tbl : Nat → Nat → List approx_t)
    (W rounds : Nat) (st : BBState) :
    branch_bound_start tbl W rounds st 0 0 W =
      (branch_bound_startList 0 0 W).foldl
        (fun s p =>
          branch_bound_fill tbl W rounds s (Function.update (fun _ => 0) 0 p) 1 p 0 0 0 0)
        st ∧
    (branch_bound_startList 0 0 W).Nodup ∧
    ∀ p, p ∈ branch_bound_startList 0 0 W ↔
      (p ≠ 0 ∧ p < 2 ^ 64 ∧ nibble_weight p ≤ W) := by
  refine ⟨start_eq_foldl tbl W rounds 16 0 W 0 st rfl,
    startList_nodup 16 0 W 0 rfl (by norm_num) (by norm_num), ?_⟩
  intro p
  have h := startList_mem_iff 16 0 W 0 rfl (by norm_num) (by norm_num) p
  simpa [Nat.mod_one] using h

/-! ### C1: bounds invariants of the branch-and-bound search

`walkElps`/`recsElps` collect, for a mid-walk position of the slot walk, the
multiplicative completion factors of every full trail reachable from it (the
leaf contributes 1, each chosen record contributes its `corr`); `rem` counts
the rounds still to finish, current round included.  They mirror
`branch_bound_fill`/`branch_bound_recs` with the bound bookkeeping stripped. -/

mutual

def walkElps (tbl : Nat → Nat → List approx_t) (W : Nat) (pin pout : Nat)
    (wt box rem : Nat) : List ℚ :=
  if hbox : box < 16 then
    if (pin >>> (box * 4)) &&& 0xf = 0 then
      walkElps tbl W pin pout wt (box + 1) rem
    else if wt ≥ W then []
    else recsElps tbl W pin pout wt box rem (tbl box ((pin >>> (box * 4)) &&& 0xf))
  else
    if rem ≤ 1 then [1]
    else walkElps tbl W pout 0 0 0 (rem - 1)
termination_by (rem, 17 - box, 0)

def recsElps (tbl : Nat → Nat → List approx_t) (W : Nat) (pin pout : Nat)
    (wt box rem : Nat) : List approx_t → List ℚ
  | [] => []
  | apx :: rest =>
    (walkElps tbl W pin (pout ||| apx.output) (wt + 1) (box + 1) rem).map
      (fun g => apx.corr * g)
      ++ recsElps tbl W pin pout wt box rem rest
termination_by recs => (rem, 16 - box, recs.length)

end

def tblOK (tbl : Nat → Nat → List approx_t) : Prop :=
  ∀ box, box < 16 → ∀ v, v < 16 → 0 < v → ∀ rec ∈ tbl box v,
    0 ≤ rec.corr ∧ rec.corr ≤ 1 ∧ rec.output ≠ 0 ∧ rec.output < 2 ^ 64

lemma tblOK_bucket {tbl : Nat → Nat → List approx_t} (ht : tblOK tbl) {pin box : Nat}
    (hbox : box < 16) (h0 : ¬ pin >>> (box * 4) &&& 15 = 0) :
    ∀ rec ∈ tbl box (pin >>> (box * 4) &&& 15),
      0 ≤ rec.corr ∧ rec.corr ≤ 1 ∧ rec.output ≠ 0 ∧ rec.output < 2 ^ 64 := by
  apply ht box hbox
  · have : pin >>> (box * 4) &&& 15 ≤ 15 := Nat.and_le_right
    omega
  · omega

lemma walk_nonneg {tbl : Nat → Nat → List approx_t} (W : Nat) (ht : tblOK tbl) :
    ∀ pin pout wt box rem, ∀ g ∈ walkElps tbl W pin pout wt box rem, 0 ≤ g := by
  refine walkElps.induct tbl W
    (fun pin pout wt box rem => ∀ g ∈ walkElps tbl W pin pout wt box rem, 0 ≤ g)
    (fun pin pout wt box rem lst => (∀ rec ∈ lst, 0 ≤ rec.corr) →
      ∀ g ∈ recsElps tbl W pin pout wt box rem lst, 0 ≤ g)
    ?_ ?_ ?_ ?_ ?_ ?_ ?_
  · intro pin pout wt box rem hbox h0 ih g hg
    rw [walkElps, dif_pos hbox, if_pos h0] at hg
    exact ih g hg
  · intro pin pout wt box rem hbox h0 hwt g hg
    rw [walkElps, dif_pos hbox, if_neg h0, if_pos hwt] at hg
    cases hg
  · intro pin pout wt box rem hbox h0 hwt ih g hg
    rw [walkElps, dif_pos hbox, if_neg h0, if_neg hwt] at hg
    exact ih (fun rec hrec => (tblOK_bucket ht hbox h0 rec hrec).1) g hg
  · intro pin pout wt box rem hbox hrem g hg
    rw [walkElps, dif_neg hbox, if_pos hrem] at hg
    rcases List.mem_singleton.mp hg with rfl
    norm_num
  · intro pin pout wt box rem hbox hrem ih g hg
    rw [walkElps, dif_neg hbox, if_neg hrem] at hg
    exact ih g hg
  · intro pin pout wt box rem hrec g hg
    rw [recsElps] at hg
    cases hg
  · intro pin pout wt box rem apx rest ih1 ih2 hrec g hg
    rw [recsElps] at hg
    rcases List.mem_append.mp hg with hg | hg
    · obtain ⟨g₁, hg₁, rfl⟩ := List.mem_map.mp hg
      exact mul_nonneg (hrec apx (List.mem_cons_self apx rest)) (ih1 g₁ hg₁)
    · exact ih2 (fun rec h => hrec rec (List.mem_cons_of_mem apx h)) g hg

lemma walk_le_one {tbl : Nat → Nat → List approx_t} (W : Nat) (ht : tblOK tbl) :
    ∀ pin pout wt box rem, ∀ g ∈ walkElps tbl W pin pout wt box rem, g ≤ 1 := by
  refine walkElps.induct tbl W
    (fun pin pout wt box rem => ∀ g ∈ walkElps tbl W pin pout wt box rem, g ≤ 1)
    (fun pin pout wt box rem lst =>
      (∀ rec ∈ lst, 0 ≤ rec.corr ∧ rec.corr ≤ 1) →
      ∀ g ∈ recsElps tbl W pin pout wt box rem lst, g ≤ 1)
    ?_ ?_ ?_ ?_ ?_ ?_ ?_
  · intro pin pout wt box rem hbox h0 ih g hg
    rw [walkElps, dif_pos hbox, if_pos h0] at hg
    exact ih g hg
  · intro pin pout wt box rem hbox h0 hwt g hg
    rw [walkElps, dif_pos hbox, if_neg h0, if_pos hwt] at hg
    cases hg
  · intro pin pout wt box rem hbox h0 hwt ih g hg
    rw [walkElps, dif_pos hbox, if_neg h0, if_neg hwt] at hg
    refine ih (fun rec hrec => ?_) g hg
    have h := tblOK_bucket ht hbox h0 rec hrec
    exact ⟨h.1, h.2.1⟩
  · intro pin pout wt box rem hbox hrem g hg
    rw [walkElps, dif_neg hbox, if_pos hrem] at hg
    rcases List.mem_singleton.mp hg with rfl
    norm_num
  · intro pin pout wt box rem hbox hrem ih g hg
    rw [walkElps, dif_neg hbox, if_neg hrem] at hg
    exact ih g hg
  · intro pin pout wt box rem hrec g hg
    rw [recsElps] at hg
    cases hg
  · intro pin pout wt box rem apx rest ih1 ih2 hrec g hg
    rw [recsElps] at hg
    rcases List.mem_append.mp hg with hg | hg
    · obtain ⟨g₁, hg₁, rfl⟩ := List.mem_map.mp hg
      have hc := hrec apx (List.mem_cons_self apx rest)
      calc apx.corr * g₁ ≤ apx.corr * 1 := by
            have hgnn := ih1 g₁ hg₁
            exact mul_le_mul_of_nonneg_left hgnn hc.1
        _ = apx.corr := mul_one _
        _ ≤ 1 := hc.2
    · exact ih2 (fun rec h => hrec rec (List.mem_cons_of_mem apx h)) g hg

lemma or_right_eq_zero {a b : Nat} (h : a ||| b = 0) : b = 0 := by
  apply Nat.eq_of_testBit_eq
  intro i
  have hcongr := congrArg (fun x => x.testBit i) h
  simp only [Nat.testBit_or] at hcongr
  simp only [Nat.zero_testBit]
  cases hb : b.testBit i
  · rfl
  · rw [hb] at hcongr; simp at hcongr

lemma go_step_at_box {pin box : Nat} (hbox : box < 16) :
    nibble_weight_go (16 - box) (pin >>> (box * 4)) =
      (if pin >>> (box * 4) &&& 15 ≠ 0 then 1 else 0) +
        nibble_weight_go (16 - (box + 1)) (pin >>> ((box + 1) * 4)) := by
  rw [show 16 - box = (16 - (box + 1)) + 1 by omega, nibble_weight_go,
    ← Nat.shiftRight_add, show box * 4 + 4 = (box + 1) * 4 by omega]

lemma walk_budget {tbl : Nat → Nat → List approx_t} (W : Nat) :
    ∀ pin pout wt box rem,
      W - wt < nibble_weight_go (16 - box) (pin >>> (box * 4)) →
      walkElps tbl W pin pout wt box rem = [] := by
  refine walkElps.induct tbl W
    (fun pin pout wt box rem =>
      W - wt < nibble_weight_go (16 - box) (pin >>> (box * 4)) →
      walkElps tbl W pin pout wt box rem = [])
    (fun pin pout wt box rem lst =>
      W - (wt + 1) < nibble_weight_go (16 - (box + 1)) (pin >>> ((box + 1) * 4)) →
      recsElps tbl W pin pout wt box rem lst = [])
    ?_ ?_ ?_ ?_ ?_ ?_ ?_
  · intro pin pout wt box rem hbox h0 ih hcnt
    rw [walkElps, dif_pos hbox, if_pos h0]
    apply ih
    rw [go_step_at_box hbox, if_neg (by omega : ¬ pin >>> (box * 4) &&& 15 ≠ 0)] at hcnt
    omega
  · intro pin pout wt box rem hbox h0 hwt hcnt
    rw [walkElps, dif_pos hbox, if_neg h0, if_pos hwt]
  · intro pin pout wt box rem hbox h0 hwt ih hcnt
    rw [walkElps, dif_pos hbox, if_neg h0, if_neg hwt]
    apply ih
    rw [go_step_at_box hbox, if_pos h0] at hcnt
    omega
  · intro pin pout wt box rem hbox hrem hcnt
    rw [show 16 - box = 0 by omega] at hcnt
    simp [nibble_weight_go] at hcnt
  · intro pin pout wt box rem hbox hrem ih hcnt
    rw [show 16 - box = 0 by omega] at hcnt
    simp [nibble_weight_go] at hcnt
  · intro pin pout wt box rem hcnt
    rw [recsElps]
  · intro pin pout wt box rem apx rest ih1 ih2 hcnt
    rw [recsElps, ih1 hcnt, ih2 hcnt]
    simp

lemma walk_bounded {tbl : Nat → Nat → List approx_t} (W : Nat) (ht : tblOK tbl)
    (B : Nat → ℚ) (hB0 : B 0 = 1) (n : Nat)
    (hUB : ∀ v, v < n → ∀ pin, pin ≠ 0 → pin < 2 ^ 64 →
      ∀ f ∈ walkElps tbl W pin 0 0 0 v, f ≤ B v) :
    ∀ pin pout wt box rem, 1 ≤ rem → rem ≤ n → pout ≠ 0 → pout < 2 ^ 64 →
      ∀ g ∈ walkElps tbl W pin pout wt box rem, g ≤ B (rem - 1) := by
  refine walkElps.induct tbl W
    (fun pin pout wt box rem => 1 ≤ rem → rem ≤ n → pout ≠ 0 → pout < 2 ^ 64 →
      ∀ g ∈ walkElps tbl W pin pout wt box rem, g ≤ B (rem - 1))
    (fun pin pout wt box rem lst => 1 ≤ rem → rem ≤ n → pout ≠ 0 → pout < 2 ^ 64 →
      (∀ rec ∈ lst, 0 ≤ rec.corr ∧ rec.corr ≤ 1 ∧ rec.output ≠ 0 ∧ rec.output < 2 ^ 64) →
      ∀ g ∈ recsElps tbl W pin pout wt box rem lst, g ≤ B (rem - 1))
    ?_ ?_ ?_ ?_ ?_ ?_ ?_
  · intro pin pout wt box rem hbox h0 ih h1 h2 h3 h4 g hg
    rw [walkElps, dif_pos hbox, if_pos h0] at hg
    exact ih h1 h2 h3 h4 g hg
  · intro pin pout wt box rem hbox h0 hwt h1 h2 h3 h4 g hg
    rw [walkElps, dif_pos hbox, if_neg h0, if_pos hwt] at hg
    cases hg
  · intro pin pout wt box rem hbox h0 hwt ih h1 h2 h3 h4 g hg
    rw [walkElps, dif_pos hbox, if_neg h0, if_neg hwt] at hg
    exact ih h1 h2 h3 h4 (tblOK_bucket ht hbox h0) g hg
  · intro pin pout wt box rem hbox hrem h1 h2 h3 h4 g hg
    rw [walkElps, dif_neg hbox, if_pos hrem] at hg
    rcases List.mem_singleton.mp hg with rfl
    rw [show rem - 1 = 0 by omega, hB0]
  · intro pin pout wt box rem hbox hrem ih h1 h2 h3 h4 g hg
    rw [walkElps, dif_neg hbox, if_neg hrem] at hg
    exact hUB (rem - 1) (by omega) pout h3 h4 g hg
  · intro pin pout wt box rem h1 h2 h3 h4 hrec g hg
    rw [recsElps] at hg
    cases hg
  · intro pin pout wt box rem apx rest ih1 ih2 h1 h2 h3 h4 hrec g hg
    rw [recsElps] at hg
    rcases List.mem_append.mp hg with hg | hg
    · obtain ⟨g₁, hg₁, rfl⟩ := List.mem_map.mp hg
      have hc := hrec apx (List.mem_cons_self apx rest)
      have hne : pout ||| apx.output ≠ 0 := fun h => hc.2.2.1 (or_right_eq_zero h)
      have hlt : pout ||| apx.output < 2 ^ 64 := Nat.or_lt_two_pow h4 hc.2.2.2
      have hg₁B := ih1 h1 h2 hne hlt g₁ hg₁
      have hg₁nn : 0 ≤ g₁ :=
        walk_nonneg W ht pin (pout ||| apx.output) (wt + 1) (box + 1) rem g₁ hg₁
      calc apx.corr * g₁ ≤ 1 * g₁ := mul_le_mul_of_nonneg_right hc.2.1 hg₁nn
        _ = g₁ := one_mul _
        _ ≤ B (rem - 1) := hg₁B
    · exact ih2 h1 h2 h3 h4 (fun rec h => hrec rec (List.mem_cons_of_mem apx h)) g hg

lemma walk_prefix {tbl : Nat → Nat → List approx_t} (W : Nat) (ht : tblOK tbl) :
    ∀ pin pout wt box rem, 2 ≤ rem →
      ∀ g ∈ walkElps tbl W pin pout wt box rem,
        ∃ g' ∈ walkElps tbl W pin pout wt box (rem - 1), g ≤ g' := by
  refine walkElps.induct tbl W
    (fun pin pout wt box rem => 2 ≤ rem →
      ∀ g ∈ walkElps tbl W pin pout wt box rem,
        ∃ g' ∈ walkElps tbl W pin pout wt box (rem - 1), g ≤ g')
    (fun pin pout wt box rem lst => 2 ≤ rem →
      (∀ rec ∈ lst, 0 ≤ rec.corr) →
      ∀ g ∈ recsElps tbl W pin pout wt box rem lst,
        ∃ g' ∈ recsElps tbl W pin pout wt box (rem - 1) lst, g ≤ g')
    ?_ ?_ ?_ ?_ ?_ ?_ ?_
  · intro pin pout wt box rem hbox h0 ih h2 g hg
    rw [walkElps, dif_pos hbox, if_pos h0] at hg
    rw [walkElps, dif_pos hbox, if_pos h0]
    exact ih h2 g hg
  · intro pin pout wt box rem hbox h0 hwt h2 g hg
    rw [walkElps, dif_pos hbox, if_neg h0, if_pos hwt] at hg
    cases hg
  · intro pin pout wt box rem hbox h0 hwt ih h2 g hg
    rw [walkElps, dif_pos hbox, if_neg h0, if_neg hwt] at hg
    rw [walkElps, dif_pos hbox, if_neg h0, if_neg hwt]
    exact ih h2 (fun rec hrec => (tblOK_bucket ht hbox h0 rec hrec).1) g hg
  · intro pin pout wt box rem hbox hrem h2 g hg
    omega
  · intro pin pout wt box rem hbox hrem ih h2 g hg
    rw [walkElps, dif_neg hbox, if_neg hrem] at hg
    rw [walkElps, dif_neg hbox]
    by_cases hr1 : rem - 1 ≤ 1
    · rw [if_pos hr1]
      refine ⟨1, List.mem_singleton.mpr rfl, ?_⟩
      exact walk_le_one W ht pout 0 0 0 (rem - 1) g hg
    · rw [if_neg hr1]
      exact ih (by omega) g hg
  · intro pin pout wt box rem h2 hrec g hg
    rw [recsElps] at hg
    cases hg
  · intro pin pout wt box rem apx rest ih1 ih2 h2 hrec g hg
    rw [recsElps] at hg
    rw [recsElps]
    rcases List.mem_append.mp hg with hg | hg
    · obtain ⟨g₁, hg₁, rfl⟩ := List.mem_map.mp hg
      obtain ⟨g₁', hg₁', hle⟩ := ih1 h2 g₁ hg₁
      refine ⟨apx.corr * g₁', List.mem_append_left _ (List.mem_map.mpr ⟨g₁', hg₁', rfl⟩), ?_⟩
      exact mul_le_mul_of_nonneg_left hle (hrec apx (List.mem_cons_self apx rest))
    · obtain ⟨g', hg', hle⟩ := ih2 h2 (fun rec h => hrec rec (List.mem_cons_of_mem apx h)) g hg
      exact ⟨g', List.mem_append_right _ hg', hle⟩

lemma fill_box16 (tbl : Nat → Nat → List approx_t) (W rounds : Nat) (st : BBState)
    (trace : Nat → Nat) (elp : ℚ) (pin pout : Nat) (wt r box : Nat) (hbox : ¬ box < 16) :
    branch_bound_fill tbl W rounds st trace elp pin pout wt r box =
      if r + 1 = rounds then
        if st.bounds rounds < elp then
          { bounds := Function.update st.bounds rounds elp,
            trail := fun i => if i ≤ rounds then Function.update trace (r + 1) pout i
              else st.trail i }
        else st
      else if _h : r + 1 < rounds then
        branch_bound_fill tbl W rounds st (Function.update trace (r + 1) pout) elp pout 0 0
          (r + 1) 0
      else st := by
  rw [branch_bound_fill, dif_neg hbox]

def UBound (tbl : Nat → Nat → List approx_t) (W v : Nat) (B : ℚ) : Prop :=
  ∀ pin, pin ≠ 0 → pin < 2 ^ 64 → ∀ f ∈ walkElps tbl W pin 0 0 0 v, f ≤ B

lemma core_fill (tbl : Nat → Nat → List approx_t) (W rounds : Nat) (ht : tblOK tbl) :
    ∀ (st : BBState) (trace : Nat → Nat) (elp : ℚ) (pin pout wt r box : Nat),
      r < rounds → 0 ≤ elp → pout < 2 ^ 64 → st.bounds 0 = 1 →
      (∀ v, v < rounds → 0 ≤ st.bounds v ∧ UBound tbl W v (st.bounds v)) →
      ((∀ i, i ≠ rounds →
          (branch_bound_fill tbl W rounds st trace elp pin pout wt r box).bounds i =
            st.bounds i) ∧
        st.bounds rounds ≤
          (branch_bound_fill tbl W rounds st trace elp pin pout wt r box).bounds rounds ∧
        (∀ g ∈ walkElps tbl W pin pout wt box (rounds - r),
          elp * g ≤
            (branch_bound_fill tbl W rounds st trace elp pin pout wt r box).bounds rounds) ∧
        ((branch_bound_fill tbl W rounds st trace elp pin pout wt r box).bounds rounds =
            st.bounds rounds ∨
          ∃ g ∈ walkElps tbl W pin pout wt box (rounds - r),
            (branch_bound_fill tbl W rounds st trace elp pin pout wt r box).bounds rounds =
              elp * g)) := by
  refine branch_bound_fill.induct tbl W rounds
    (fun st trace elp pin pout wt r box =>
      r < rounds → 0 ≤ elp → pout < 2 ^ 64 → st.bounds 0 = 1 →
      (∀ v, v < rounds → 0 ≤ st.bounds v ∧ UBound tbl W v (st.bounds v)) →
      ((∀ i, i ≠ rounds →
          (branch_bound_fill tbl W rounds st trace elp pin pout wt r box).bounds i =
            st.bounds i) ∧
        st.bounds rounds ≤
          (branch_bound_fill tbl W rounds st trace elp pin pout wt r box).bounds rounds ∧
        (∀ g ∈ walkElps tbl W pin pout wt box (rounds - r),
          elp * g ≤
            (branch_bound_fill tbl W rounds st trace elp pin pout wt r box).bounds rounds) ∧
        ((branch_bound_fill tbl W rounds st trace elp pin pout wt r box).bounds rounds =
            st.bounds rounds ∨
          ∃ g ∈ walkElps tbl W pin pout wt box (rounds - r),
            (branch_bound_fill tbl W rounds st trace elp pin pout wt r box).bounds rounds =
              elp * g)))
    (fun st trace elp pin pout wt r box lst =>
      r < rounds → 0 ≤ elp → pout < 2 ^ 64 → st.bounds 0 = 1 →
      (∀ v, v < rounds → 0 ≤ st.bounds v ∧ UBound tbl W v (st.bounds v)) →
      (∀ rec ∈ lst, 0 ≤ rec.corr ∧ rec.corr ≤ 1 ∧ rec.output ≠ 0 ∧ rec.output < 2 ^ 64) →
      ((∀ i, i ≠ rounds →
          (branch_bound_recs tbl W rounds st trace elp pin pout wt r box lst).bounds i =
            st.bounds i) ∧
        st.bounds rounds ≤
          (branch_bound_recs tbl W rounds st trace elp pin pout wt r box lst).bounds rounds ∧
        (∀ g ∈ recsElps tbl W pin pout wt box (rounds - r) lst,
          elp * g ≤
            (branch_bound_recs tbl W rounds st trace elp pin pout wt r box lst).bounds
              rounds) ∧
        ((branch_bound_recs tbl W rounds st trace elp pin pout wt r box lst).bounds rounds =
            st.bounds rounds ∨
          ∃ g ∈ recsElps tbl W pin pout wt box (rounds - r) lst,
            (branch_bound_recs tbl W rounds st trace elp pin pout wt r box lst).bounds
              rounds = elp * g)))
    ?_ ?_ ?_ ?_ ?_ ?_ ?_ ?_ ?_ ?_
  · -- box < 16, inactive slot
    intro st trace elp pin pout wt r box hbox h0 ih hr he hp h1 hlow
    rw [branch_bound_fill, dif_pos hbox, if_pos h0]
    have hw : walkElps tbl W pin pout wt box (rounds - r) =
        walkElps tbl W pin pout wt (box + 1) (rounds - r) := by
      rw [walkElps, dif_pos hbox, if_pos h0]
    rw [hw]
    exact ih hr he hp h1 hlow
  · -- box < 16, active, wt ≥ W
    intro st trace elp pin pout wt r box hbox h0 hwt hr he hp h1 hlow
    rw [branch_bound_fill, dif_pos hbox, if_neg h0, if_pos hwt]
    have hw : walkElps tbl W pin pout wt box (rounds - r) = [] := by
      rw [walkElps, dif_pos hbox, if_neg h0, if_pos hwt]
    rw [hw]
    refine ⟨fun i _ => rfl, le_refl _, fun g hg => absurd hg (List.not_mem_nil g), Or.inl rfl⟩
  · -- box < 16, active, wt < W: delegate to the record loop
    intro st trace elp pin pout wt r box hbox h0 hwt ih hr he hp h1 hlow
    rw [branch_bound_fill, dif_pos hbox, if_neg h0, if_neg hwt]
    have hw : walkElps tbl W pin pout wt box (rounds - r) =
        recsElps tbl W pin pout wt box (rounds - r)
          (tbl box (pin >>> (box * 4) &&& 15)) := by
      rw [walkElps, dif_pos hbox, if_neg h0, if_neg hwt]
    rw [hw]
    exact ih hr he hp h1 hlow (tblOK_bucket ht hbox h0)
  · -- leaf, improvement
    intro st trace elp pin pout wt r box hbox hreq himp hr he hp h1 hlow
    rw [fill_box16 tbl W rounds st trace elp pin pout wt r box hbox, if_pos hreq,
      if_pos himp]
    have hw : walkElps tbl W pin pout wt box (rounds - r) = [1] := by
      rw [walkElps, dif_neg hbox, if_pos (by omega : rounds - r ≤ 1)]
    rw [hw]
    refine ⟨?_, ?_, ?_, ?_⟩
    · intro i hi
      exact Function.update_noteq hi _ _
    · show st.bounds rounds ≤ Function.update st.bounds rounds elp rounds
      rw [Function.update_same]
      exact le_of_lt himp
    · intro g hg
      rcases List.mem_singleton.mp hg with rfl
      show elp * 1 ≤ Function.update st.bounds rounds elp rounds
      rw [mul_one, Function.update_same]
    · refine Or.inr ⟨1, List.mem_singleton.mpr rfl, ?_⟩
      show Function.update st.bounds rounds elp rounds = elp * 1
      rw [mul_one, Function.update_same]
  · -- leaf, no improvement
    intro st trace elp pin pout wt r box hbox hreq himp hr he hp h1 hlow
    rw [fill_box16 tbl W rounds st trace elp pin pout wt r box hbox, if_pos hreq,
      if_neg himp]
    have hw : walkElps tbl W pin pout wt box (rounds - r) = [1] := by
      rw [walkElps, dif_neg hbox, if_pos (by omega : rounds - r ≤ 1)]
    rw [hw]
    refine ⟨fun i _ => rfl, le_refl _, ?_, Or.inl rfl⟩
    intro g hg
    rcases List.mem_singleton.mp hg with rfl
    rw [mul_one]
    exact le_of_not_lt himp
  · -- leaf, next round
    intro st trace elp pin pout wt r box hbox t2 hreq hlt ih hr he hp h1 hlow
    rw [fill_box16 tbl W rounds st trace elp pin pout wt r box hbox, if_neg hreq,
      dif_pos hlt]
    have hw : walkElps tbl W pin pout wt box (rounds - r) =
        walkElps tbl W pout 0 0 0 (rounds - (r + 1)) := by
      rw [walkElps, dif_neg hbox, if_neg (by omega : ¬ rounds - r ≤ 1),
        show rounds - r - 1 = rounds - (r + 1) by omega]
    rw [hw]
    exact ih hlt he (by norm_num) h1 hlow
  · -- leaf, r + 1 > rounds (unreachable under r < rounds)
    intro st trace elp pin pout wt r box hbox hreq hlt hr he hp h1 hlow
    omega
  · -- record loop, empty bucket
    intro st trace elp pin pout wt r box hr he hp h1 hlow hrec
    rw [branch_bound_recs]
    have hw : recsElps tbl W pin pout wt box (rounds - r) ([] : List approx_t) = [] := by
      rw [recsElps]
    rw [hw]
    refine ⟨fun i _ => rfl, le_refl _, fun g hg => absurd hg (List.not_mem_nil g), Or.inl rfl⟩
  · -- record loop, pruned record
    intro st trace elp pin pout wt r box apx rest hprune ih hr he hp h1 hlow hrec
    have hgood := hrec apx (List.mem_cons_self apx rest)
    have hrest : ∀ rec ∈ rest, 0 ≤ rec.corr ∧ rec.corr ≤ 1 ∧ rec.output ≠ 0 ∧
        rec.output < 2 ^ 64 := fun rec h => hrec rec (List.mem_cons_of_mem apx h)
    obtain ⟨iA, iB, iC, iD⟩ := ih hr he hp h1 hlow hrest
    rw [branch_bound_recs, if_pos hprune]
    have hw : recsElps tbl W pin pout wt box (rounds - r) (apx :: rest) =
        (walkElps tbl W pin (pout ||| apx.output) (wt + 1) (box + 1) (rounds - r)).map
          (fun g => apx.corr * g) ++ recsElps tbl W pin pout wt box (rounds - r) rest := by
      rw [recsElps]
    rw [hw]
    refine ⟨iA, iB, ?_, ?_⟩
    · intro g hg
      rcases List.mem_append.mp hg with hg | hg
      · obtain ⟨g₁, hg₁, rfl⟩ := List.mem_map.mp hg
        have hne : pout ||| apx.output ≠ 0 := fun h => hgood.2.2.1 (or_right_eq_zero h)
        have hlt : pout ||| apx.output < 2 ^ 64 := Nat.or_lt_two_pow hp hgood.2.2.2
        have hg₁B : g₁ ≤ st.bounds (rounds - (r + 1)) := by
          have := walk_bounded W ht st.bounds h1 rounds
            (fun v hv => (hlow v hv).2) pin (pout ||| apx.output) (wt + 1) (box + 1)
            (rounds - r) (by omega) (by omega) hne hlt g₁ hg₁
          rwa [show rounds - r - 1 = rounds - (r + 1) by omega] at this
        have hec : 0 ≤ elp * apx.corr := mul_nonneg he hgood.1
        calc elp * (apx.corr * g₁) = elp * apx.corr * g₁ := by ring
          _ ≤ elp * apx.corr * st.bounds (rounds - (r + 1)) :=
            mul_le_mul_of_nonneg_left hg₁B hec
          _ ≤ st.bounds rounds := hprune
          _ ≤ (branch_bound_recs tbl W rounds st trace elp pin pout wt r box rest).bounds
              rounds := iB
      · exact iC g hg
    · rcases iD with h | ⟨g, hg, hgE⟩
      · exact Or.inl h
      · exact Or.inr ⟨g, List.mem_append_right _ hg, hgE⟩
  · -- record loop, recursing record
    intro st trace elp pin pout wt r box apx rest hprune ih1 ih2 hr he hp h1 hlow hrec
    have hgood := hrec apx (List.mem_cons_self apx rest)
    have hrest : ∀ rec ∈ rest, 0 ≤ rec.corr ∧ rec.corr ≤ 1 ∧ rec.output ≠ 0 ∧
        rec.output < 2 ^ 64 := fun rec h => hrec rec (List.mem_cons_of_mem apx h)
    have hlt64 : pout ||| apx.output < 2 ^ 64 := Nat.or_lt_two_pow hp hgood.2.2.2
    obtain ⟨jA, jB, jC, jD⟩ := ih1 hr (mul_nonneg he hgood.1) hlt64 h1 hlow
    set st₁ := branch_bound_fill tbl W rounds st trace (elp * apx.corr) pin
      (pout ||| apx.output) (wt + 1) r (box + 1) with hst₁
    have h1' : st₁.bounds 0 = 1 := by rw [jA 0 (by omega), h1]
    have hlow' : ∀ v, v < rounds → 0 ≤ st₁.bounds v ∧ UBound tbl W v (st₁.bounds v) := by
      intro v hv
      rw [jA v (by omega)]
      exact hlow v hv
    obtain ⟨kA, kB, kC, kD⟩ := ih2 hr he hp h1' hlow' hrest
    rw [branch_bound_recs, if_neg hprune]
    have hw : recsElps tbl W pin pout wt box (rounds - r) (apx :: rest) =
        (walkElps tbl W pin (pout ||| apx.output) (wt + 1) (box + 1) (rounds - r)).map
          (fun g => apx.corr * g) ++ recsElps tbl W pin pout wt box (rounds - r) rest := by
      rw [recsElps]
    rw [hw]
    refine ⟨?_, ?_, ?_, ?_⟩
    · intro i hi
      rw [kA i hi, jA i hi]
    · exact le_trans jB kB
    · intro g hg
      rcases List.mem_append.mp hg with hg | hg
      · obtain ⟨g₁, hg₁, rfl⟩ := List.mem_map.mp hg
        calc elp * (apx.corr * g₁) = elp * apx.corr * g₁ := by ring
          _ ≤ st₁.bounds rounds := jC g₁ hg₁
          _ ≤ _ := kB
      · exact kC g hg
    · rcases kD with h | ⟨g, hg, hgE⟩
      · rcases jD with h' | ⟨g₁, hg₁, hgE'⟩
        · exact Or.inl (by rw [h, h'])
        · refine Or.inr ⟨apx.corr * g₁,
            List.mem_append_left _ (List.mem_map.mpr ⟨g₁, hg₁, rfl⟩), ?_⟩
          rw [h, hgE']
          ring
      · exact Or.inr ⟨g, List.mem_append_right _ hg, hgE⟩

lemma core_fold (tbl : Nat → Nat → List approx_t) (W rounds : Nat) (ht : tblOK tbl) :
    ∀ (l : List Nat) (st : BBState),
      st.bounds 0 = 1 →
      (∀ v, v < rounds → 0 ≤ st.bounds v ∧ UBound tbl W v (st.bounds v)) →
      0 < rounds →
      ((∀ i, i ≠ rounds →
          (l.foldl (fun s p => branch_bound_fill tbl W rounds s
            (Function.update (fun _ => 0) 0 p) 1 p 0 0 0 0) st).bounds i = st.bounds i) ∧
        st.bounds rounds ≤
          (l.foldl (fun s p => branch_bound_fill tbl W rounds s
            (Function.update (fun _ => 0) 0 p) 1 p 0 0 0 0) st).bounds rounds ∧
        (∀ p ∈ l, ∀ g ∈ walkElps tbl W p 0 0 0 rounds,
          g ≤ (l.foldl (fun s p => branch_bound_fill tbl W rounds s
            (Function.update (fun _ => 0) 0 p) 1 p 0 0 0 0) st).bounds rounds) ∧
        ((l.foldl (fun s p => branch_bound_fill tbl W rounds s
            (Function.update (fun _ => 0) 0 p) 1 p 0 0 0 0) st).bounds rounds =
              st.bounds rounds ∨
          ∃ p ∈ l, ∃ g ∈ walkElps tbl W p 0 0 0 rounds,
            (l.foldl (fun s p => branch_bound_fill tbl W rounds s
              (Function.update (fun _ => 0) 0 p) 1 p 0 0 0 0) st).bounds rounds = g)) := by
  intro l
  induction l with
  | nil =>
    intro st h1 hlow hr
    exact ⟨fun i _ => rfl, le_refl _, fun p hp => absurd hp (List.not_mem_nil p),
      Or.inl rfl⟩
  | cons p t ih =>
    intro st h1 hlow hr
    obtain ⟨jA, jB, jC, jD⟩ := core_fill tbl W rounds ht st
      (Function.update (fun _ => 0) 0 p) 1 p 0 0 0 0 hr (by norm_num) (by norm_num) h1 hlow
    rw [Nat.sub_zero] at jC jD
    set st₁ := branch_bound_fill tbl W rounds st (Function.update (fun _ => 0) 0 p)
      1 p 0 0 0 0 with hst₁
    have h1' : st₁.bounds 0 = 1 := by rw [jA 0 (by omega), h1]
    have hlow' : ∀ v, v < rounds → 0 ≤ st₁.bounds v ∧ UBound tbl W v (st₁.bounds v) := by
      intro v hv
      rw [jA v (by omega)]
      exact hlow v hv
    obtain ⟨kA, kB, kC, kD⟩ := ih st₁ h1' hlow' hr
    rw [List.foldl_cons]
    refine ⟨?_, ?_, ?_, ?_⟩
    · intro i hi
      rw [kA i hi, jA i hi]
    · exact le_trans jB kB
    · intro q hq g hg
      rcases List.mem_cons.mp hq with rfl | hq
      · have := jC g hg
        rw [one_mul] at this
        exact le_trans this kB
      · exact kC q hq g hg
    · rcases kD with hD | ⟨q, hq, g, hg, hgE⟩
      · rcases jD with hD' | ⟨g, hg, hgE'⟩
        · exact Or.inl (by rw [hD, hD'])
        · refine Or.inr ⟨p, List.mem_cons_self p t, g, hg, ?_⟩
          rw [hD, hgE', one_mul]
      · exact Or.inr ⟨q, List.mem_cons_of_mem p hq, g, hg, hgE⟩

/-- The driver invariant after the searches of depths `1..m` have run: `bounds[0] = 1`,
each settled `bounds[v]` is a non-negative upper bound on every `v`-round trail ELP,
is non-increasing in `v`, sits at least `2^-8` times the previous bound, and the
still-unvisited entries are `0`. -/
def searchInv (tbl : Nat → Nat → List approx_t) (W m : Nat) (st : BBState) : Prop :=
  st.bounds 0 = 1 ∧
  (∀ v, 1 ≤ v → v ≤ m →
    0 ≤ st.bounds v ∧ UBound tbl W v (st.bounds v) ∧
    st.bounds v ≤ st.bounds (v - 1) ∧ st.bounds (v - 1) * (1 / 256) ≤ st.bounds v) ∧
  ∀ v, m < v → st.bounds v = 0

lemma searchInv_step (tbl : Nat → Nat → List approx_t) (W : Nat) (ht : tblOK tbl)
    (m : Nat) (st : BBState) (h : searchInv tbl W m st) :
    searchInv tbl W (m + 1)
      (branch_bound_start tbl W (m + 1)
        { st with bounds := Function.update st.bounds (m + 1) (st.bounds m * (1 / 256)) }
        0 0 W) := by
  obtain ⟨h1, hmid, hhi⟩ := h
  set st₁ : BBState :=
    { st with bounds := Function.update st.bounds (m + 1) (st.bounds m * (1 / 256)) }
    with hst₁
  have hb₁ : ∀ v, v ≠ m + 1 → st₁.bounds v = st.bounds v := by
    intro v hv
    show Function.update st.bounds (m + 1) (st.bounds m * (1 / 256)) v = st.bounds v
    exact Function.update_noteq hv _ _
  have hseed : st₁.bounds (m + 1) = st.bounds m * (1 / 256) :=
    Function.update_same _ _ _
  have h1' : st₁.bounds 0 = 1 := by rw [hb₁ 0 (by omega), h1]
  have hnn_m : 0 ≤ st.bounds m := by
    rcases Nat.eq_zero_or_pos m with rfl | hm
    · rw [h1]
      norm_num
    · exact (hmid m hm (le_refl m)).1
  have hlow' : ∀ v, v < m + 1 → 0 ≤ st₁.bounds v ∧ UBound tbl W v (st₁.bounds v) := by
    intro v hv
    rw [hb₁ v (by omega)]
    rcases Nat.eq_zero_or_pos v with rfl | hv1
    · rw [h1]
      exact ⟨by norm_num, fun pin hp1 hp2 f hf => walk_le_one W ht pin 0 0 0 0 f hf⟩
    · exact ⟨(hmid v hv1 (by omega)).1, (hmid v hv1 (by omega)).2.1⟩
  rw [start_eq_foldl tbl W (m + 1) 16 0 W 0 st₁ rfl]
  obtain ⟨kA, kB, kC, kD⟩ := core_fold tbl W (m + 1) ht
    (branch_bound_startList 0 0 W) st₁ h1' hlow' (by omega)
  refine ⟨?_, ?_, ?_⟩
  · rw [kA 0 (by omega), h1']
  · intro v hv1 hvle
    by_cases hvm : v ≤ m
    · have hvne : v ≠ m + 1 := by omega
      have e1 := kA v hvne
      have e0 := kA (v - 1) (by omega)
      rw [e1, e0, hb₁ v hvne, hb₁ (v - 1) (by omega)]
      exact hmid v hv1 hvm
    · have hveq : v = m + 1 := by omega
      subst hveq
      have hs0 : 0 ≤ st₁.bounds (m + 1) := by
        rw [hseed]
        exact mul_nonneg hnn_m (by norm_num)
      have hFm : (((branch_bound_startList 0 0 W).foldl (fun s p =>
          branch_bound_fill tbl W (m + 1) s (Function.update (fun _ => 0) 0 p)
            1 p 0 0 0 0) st₁).bounds (m + 1 - 1)) = st.bounds m := by
        rw [show m + 1 - 1 = m from rfl, kA m (by omega), hb₁ m (by omega)]
      refine ⟨le_trans hs0 kB, ?_, ?_, ?_⟩
      · intro pin hp0 hp64 f hf
        by_cases hw : nibble_weight pin ≤ W
        · have hmem : pin ∈ branch_bound_startList 0 0 W := by
            rw [startList_mem_iff 16 0 W 0 rfl (by norm_num) (by norm_num) pin]
            refine ⟨hp0, hp64, by simpa using Nat.mod_one pin, by simpa using hw⟩
          exact kC pin hmem f hf
        · exfalso
          have hempty : walkElps tbl W pin 0 0 0 (m + 1) = [] := by
            apply walk_budget
            have hnw : nibble_weight pin = nibble_weight_go 16 pin := rfl
            simp only [Nat.sub_zero, Nat.zero_mul, Nat.shiftRight_zero]
            omega
          rw [hempty] at hf
          exact absurd hf (List.not_mem_nil f)
      · rw [hFm]
        rcases kD with hD | ⟨p, hp, g, hg, hgE⟩
        · rw [hD, hseed]
          exact mul_le_of_le_one_right hnn_m (by norm_num)
        · rw [hgE]
          have hpmem := (startList_mem_iff 16 0 W 0 rfl (by norm_num) (by norm_num) p).mp hp
          rcases Nat.eq_zero_or_pos m with rfl | hm
          · calc g ≤ 1 := walk_le_one W ht p 0 0 0 (0 + 1) g hg
              _ = st.bounds 0 := h1.symm
          · obtain ⟨g', hg', hgle⟩ := walk_prefix W ht p 0 0 0 (m + 1) (by omega) g hg
            have hgB : g' ≤ st.bounds m := by
              have := (hmid m hm (le_refl m)).2.1 p hpmem.1 hpmem.2.1 g'
                (by rwa [show m + 1 - 1 = m from rfl] at hg')
              exact this
            linarith
      · rw [hFm, ← hseed]
        exact kB
  · intro v hv
    rw [kA v (by omega), hb₁ v (by omega)]
    exact hhi v (by omega)

lemma search_inv (tbl : Nat → Nat → List approx_t) (ht : tblOK tbl) :
    ∀ R, searchInv tbl 4 R (branch_bound_search tbl R) := by
  intro R
  induction R with
  | zero =>
    rw [branch_bound_search, List.range_zero, List.foldl_nil]
    refine ⟨show Function.update (fun _ => (0 : ℚ)) 0 1 0 = 1 from Function.update_same _ _ _,
      by intro v h1 h2; omega, ?_⟩
    intro v hv
    show Function.update (fun _ => (0 : ℚ)) 0 1 v = 0
    rw [Function.update_noteq (by omega)]
  | succ R ih =>
    rw [branch_bound_search, List.range_succ, List.foldl_append, List.foldl_cons,
      List.foldl_nil, ← branch_bound_search]
    exact searchInv_step tbl 4 ht R (branch_bound_search tbl R) ih

/-- C1 (amended): at termination of `branch_bound_search` over depths `1..R`, for a
table whose records carry a squared correlation in `[0,1]` and a non-zero 64-bit
output mask, `bounds[0] = 1` and for every `r` in `1..R` the array is
non-increasing, `bounds[r] ≤ bounds[r-1]`, and bounded below by the seeding ratio,
`bounds[r] ≥ bounds[r-1] * 2^-8`.  (The originally claimed floor
`bounds[r] ≥ bounds[r-1] * max_c2` fails, see `bounds_maxc2_floor_violated`.) -/
theorem branch_bound_search_bounds (tbl : Nat → Nat → List approx_t) (ht : tblOK tbl)
    (R : Nat) :
    (branch_bound_search tbl R).bounds 0 = 1 ∧
    ∀ r, 1 ≤ r → r ≤ R →
      (branch_bound_search tbl R).bounds r ≤ (branch_bound_search tbl R).bounds (r - 1) ∧
      (branch_bound_search tbl R).bounds (r - 1) * (1 / 256) ≤
        (branch_bound_search tbl R).bounds r := by
  obtain ⟨h1, hmid, _⟩ := search_inv tbl ht R
  exact ⟨h1, fun r hr1 hr2 => ⟨(hmid r hr1 hr2).2.2.1, (hmid r hr1 hr2).2.2.2⟩⟩

/-- Witness for C1 (amended): the empty table satisfies the table hypothesis, and the
theorem applies to it at depth `R = 3`. -/
theorem branch_bound_search_bounds_witness :
    tblOK (fun _ _ => []) ∧
    ((branch_bound_search (fun _ _ => []) 3).bounds 0 = 1 ∧
      ∀ r, 1 ≤ r → r ≤ 3 →
        (branch_bound_search (fun _ _ => []) 3).bounds r ≤
          (branch_bound_search (fun _ _ => []) 3).bounds (r - 1) ∧
        (branch_bound_search (fun _ _ => []) 3).bounds (r - 1) * (1 / 256) ≤
          (branch_bound_search (fun _ _ => []) 3).bounds r) :=
  ⟨fun _ _ _ _ _ rec hrec => absurd hrec (List.not_mem_nil rec),
    branch_bound_search_bounds (fun _ _ => [])
      (fun _ _ _ _ _ rec hrec => absurd hrec (List.not_mem_nil rec)) 3⟩

/-! ### C1 counterexample: the `max_c2` floor fails -/

/-- A one-record table: the only approximation is input nibble `1` at box `0`,
with (already permuted) output mask `2` and squared correlation `1/4`. -/
def tbl01 : Nat → Nat → List approx_t :=
  fun box v => if box = 0 ∧ v = 1 then [⟨1, 2, 1, (1 / 4 : ℚ)⟩] else []

/-- The spec's `max_c2`: the largest squared correlation of any single S-box
approximation with a non-zero output mask (0 if there are none). -/
def maxC2 (tbl : Nat → Nat → List approx_t) : ℚ :=
  (((List.range 16).map (fun box =>
    ((List.range 16).map (fun v =>
      ((tbl box v).filter (fun rec => rec.output ≠ 0)).map (fun rec => rec.corr))).flatten)).flatten).foldl
    max 0

lemma foldl_id {f : BBState → Nat → BBState} :
    ∀ (l : List Nat) (st : BBState), (∀ s q, q ∈ l → f s q = s) → l.foldl f st = st := by
  intro l
  induction l with
  | nil => intro st _; rfl
  | cons p t ih =>
    intro st hid
    rw [List.foldl_cons, hid st p (List.mem_cons_self p t)]
    exact ih st (fun s q hq => hid s q (List.mem_cons_of_mem p hq))

lemma foldl_single {f : BBState → Nat → BBState} {a : Nat} :
    ∀ (l : List Nat), (∀ s p, p ∈ l → p ≠ a → f s p = s) → a ∈ l → l.Nodup →
      ∀ st, l.foldl f st = f st a := by
  intro l
  induction l with
  | nil => intro _ ha; cases ha
  | cons p t ih =>
    intro hid ha hnd st
    rcases List.mem_cons.mp ha with rfl | hat
    · rw [List.foldl_cons]
      apply foldl_id
      intro s q hq
      exact hid s q (List.mem_cons_of_mem a hq)
        (fun hqa => (List.nodup_cons.mp hnd).1 (hqa ▸ hq))
    · have hpa : p ≠ a := fun h => (List.nodup_cons.mp hnd).1 (h ▸ hat)
      rw [List.foldl_cons, hid st p (List.mem_cons_self p t) hpa]
      exact ih (fun s q hq hqa => hid s q (List.mem_cons_of_mem p hq) hqa) hat
        (List.nodup_cons.mp hnd).2 st

lemma dead_walk (tbl : Nat → Nat → List approx_t) (W rounds : Nat) :
    ∀ (st : BBState) (trace : Nat → Nat) (elp : ℚ) (pin pout wt r box : Nat),
      (∃ b, box ≤ b ∧ b < 16 ∧ (pin >>> (b * 4)) &&& 0xf ≠ 0 ∧
        tbl b ((pin >>> (b * 4)) &&& 0xf) = []) →
      branch_bound_fill tbl W rounds st trace elp pin pout wt r box = st := by
  refine branch_bound_fill.induct tbl W rounds
    (fun st trace elp pin pout wt r box =>
      (∃ b, box ≤ b ∧ b < 16 ∧ (pin >>> (b * 4)) &&& 0xf ≠ 0 ∧
        tbl b ((pin >>> (b * 4)) &&& 0xf) = []) →
      branch_bound_fill tbl W rounds st trace elp pin pout wt r box = st)
    (fun st trace elp pin pout wt r box lst =>
      (∃ b, box + 1 ≤ b ∧ b < 16 ∧ (pin >>> (b * 4)) &&& 0xf ≠ 0 ∧
        tbl b ((pin >>> (b * 4)) &&& 0xf) = []) →
      branch_bound_recs tbl W rounds st trace elp pin pout wt r box lst = st)
    ?_ ?_ ?_ ?_ ?_ ?_ ?_ ?_ ?_ ?_
  · intro st trace elp pin pout wt r box hbox h0 ih hd
    obtain ⟨b, hb1, hb2, hb3, hb4⟩ := hd
    have hbne : b ≠ box := fun h => hb3 (h ▸ h0)
    rw [branch_bound_fill, dif_pos hbox, if_pos h0]
    exact ih ⟨b, by omega, hb2, hb3, hb4⟩
  · intro st trace elp pin pout wt r box hbox h0 hwt hd
    rw [branch_bound_fill, dif_pos hbox, if_neg h0, if_pos hwt]
  · intro st trace elp pin pout wt r box hbox h0 hwt ih hd
    obtain ⟨b, hb1, hb2, hb3, hb4⟩ := hd
    rw [branch_bound_fill, dif_pos hbox, if_neg h0, if_neg hwt]
    by_cases hbb : b = box
    · subst hbb
      rw [hb4, branch_bound_recs]
    · exact ih ⟨b, by omega, hb2, hb3, hb4⟩
  · intro st trace elp pin pout wt r box hbox hreq himp hd
    obtain ⟨b, hb1, hb2, _, _⟩ := hd
    omega
  · intro st trace elp pin pout wt r box hbox hreq himp hd
    obtain ⟨b, hb1, hb2, _, _⟩ := hd
    omega
  · intro st trace elp pin pout wt r box hbox t2 hreq hlt ih hd
    obtain ⟨b, hb1, hb2, _, _⟩ := hd
    omega
  · intro st trace elp pin pout wt r box hbox hreq hlt hd
    obtain ⟨b, hb1, hb2, _, _⟩ := hd
    omega
  · intro st trace elp pin pout wt r box hd
    rw [branch_bound_recs]
  · intro st trace elp pin pout wt r box apx rest hprune ih hd
    rw [branch_bound_recs, if_pos hprune]
    exact ih hd
  · intro st trace elp pin pout wt r box apx rest hprune ih1 ih2 hd
    rw [branch_bound_recs, if_neg hprune]
    calc branch_bound_recs tbl W rounds
          (branch_bound_fill tbl W rounds st trace (elp * apx.corr) pin
            (pout ||| apx.output) (wt + 1) r (box + 1)) trace elp pin pout wt r box rest
        = branch_bound_fill tbl W rounds st trace (elp * apx.corr) pin
            (pout ||| apx.output) (wt + 1) r (box + 1) := ih2 hd
      _ = st := ih1 (by obtain ⟨b, hb1, hb2, hb3, hb4⟩ := hd; exact ⟨b, hb1, hb2, hb3, hb4⟩)

lemma ex_nonzero_nibble :
    ∀ k y, y < 2 ^ (4 * k) → y ≠ 0 → ∃ b, b < k ∧ (y >>> (b * 4)) &&& 0xf ≠ 0 := by
  intro k
  induction k with
  | zero =>
    intro y hy h0
    interval_cases y
    exact absurd rfl h0
  | succ k ih =>
    intro y hy h0
    by_cases hnib : y &&& 0xf = 0
    · have hmod : y % 16 = 0 := by
        have := Nat.and_pow_two_sub_one_eq_mod y 4
        norm_num at this
        omega
      have hsh : y >>> 4 ≠ 0 := by
        intro h
        rw [Nat.shiftRight_eq_div_pow] at h
        have : y < 16 := by
          have := (Nat.div_eq_zero_iff (by norm_num : 0 < 16)).mp h
          omega
        omega
      have hlt : y >>> 4 < 2 ^ (4 * k) := by
        rw [Nat.shiftRight_eq_div_pow]
        apply Nat.div_lt_of_lt_mul
        calc y < 2 ^ (4 * (k + 1)) := hy
          _ = 2 ^ 4 * 2 ^ (4 * k) := by rw [show 4 * (k + 1) = 4 + 4 * k by omega, pow_add]
      obtain ⟨b, hb, hnz⟩ := ih (y >>> 4) hlt hsh
      refine ⟨b + 1, by omega, ?_⟩
      rw [show (b + 1) * 4 = 4 + b * 4 by omega, Nat.shiftRight_add]
      exact hnz
    · exact ⟨0, by omega, by simpa using hnib⟩

lemma tbl01_dead {p : Nat} (hp0 : p ≠ 0) (hp64 : p < 2 ^ 64) (hp1 : p ≠ 1) :
    ∃ b, 0 ≤ b ∧ b < 16 ∧ (p >>> (b * 4)) &&& 0xf ≠ 0 ∧
      tbl01 b ((p >>> (b * 4)) &&& 0xf) = [] := by
  by_cases hnib : p &&& 0xf = 1
  · have hsh : p >>> 4 ≠ 0 := by
      intro h
      rw [Nat.shiftRight_eq_div_pow] at h
      have hlt : p < 16 := by
        have := (Nat.div_eq_zero_iff (by norm_num : 0 < 16)).mp h
        omega
      have hmod : p % 16 = 1 := by
        have := Nat.and_pow_two_sub_one_eq_mod p 4
        norm_num at this
        omega
      omega
    have hlt : p >>> 4 < 2 ^ (4 * 15) := by
      rw [Nat.shiftRight_eq_div_pow]
      apply Nat.div_lt_of_lt_mul
      calc p < 2 ^ 64 := hp64
        _ = 2 ^ (4 * 15) * 2 ^ 4 := by norm_num
    obtain ⟨b, hb, hnz⟩ := ex_nonzero_nibble 15 (p >>> 4) hlt hsh
    have hnz' : (p >>> ((b + 1) * 4)) &&& 0xf ≠ 0 := by
      rw [show (b + 1) * 4 = 4 + b * 4 by omega, Nat.shiftRight_add]
      exact hnz
    refine ⟨b + 1, by omega, by omega, hnz', ?_⟩
    rw [tbl01, if_neg (by omega : ¬ (b + 1 = 0 ∧ (p >>> ((b + 1) * 4)) &&& 0xf = 1))]
  · by_cases hz : p &&& 0xf = 0
    · obtain ⟨b, hb, hnz⟩ := ex_nonzero_nibble 16 p (by simpa using hp64) hp0
      by_cases hb0 : b = 0
      · subst hb0
        simp only [Nat.zero_mul, Nat.shiftRight_zero] at hnz
        exact absurd hz hnz
      · refine ⟨b, by omega, hb, hnz, ?_⟩
        rw [tbl01, if_neg (by omega : ¬ (b = 0 ∧ (p >>> (b * 4)) &&& 0xf = 1))]
    · refine ⟨0, le_refl 0, by omega, by simpa using hz, ?_⟩
      rw [tbl01]
      rw [if_neg ?_]
      simp only [Nat.zero_mul, Nat.shiftRight_zero]
      intro h
      exact hnib (by simpa using h.2)

lemma skip_to_leaf (tbl : Nat → Nat → List approx_t) (W rounds : Nat) (st : BBState)
    (trace : Nat → Nat) (elp : ℚ) (pin pout : Nat) (wt r : Nat) :
    ∀ k box, box + k = 16 →
      (∀ b, box ≤ b → b < 16 → (pin >>> (b * 4)) &&& 0xf = 0) →
      branch_bound_fill tbl W rounds st trace elp pin pout wt r box =
        branch_bound_fill tbl W rounds st trace elp pin pout wt r 16 := by
  intro k
  induction k with
  | zero =>
    intro box hk h
    rw [show box = 16 by omega]
  | succ k ih =>
    intro box hk h
    have hbox : box < 16 := by omega
    rw [branch_bound_fill, dif_pos hbox, if_pos (h box (le_refl box) hbox)]
    exact ih (box + 1) (by omega) (fun b hb1 hb2 => h b (by omega) hb2)

lemma round1_fill (st : BBState) (tr : Nat → Nat) (h0 : st.bounds 0 = 1)
    (h1 : st.bounds 1 = 1 * (1 / 256)) :
    (branch_bound_fill tbl01 4 1 st tr 1 1 0 0 0 0).bounds =
      Function.update st.bounds 1 (1 * (1 / 4)) := by
  rw [branch_bound_fill, dif_pos (by norm_num : (0 : Nat) < 16),
    if_neg (by decide : ¬ ((1 : Nat) >>> (0 * 4)) &&& 0xf = 0),
    if_neg (by decide : ¬ (0 : Nat) ≥ 4)]
  rw [show tbl01 0 ((1 >>> (0 * 4)) &&& 0xf) = [⟨1, 2, 1, (1 / 4 : ℚ)⟩] from rfl]
  simp only [branch_bound_recs]
  rw [if_neg (by
    rw [show (1 : Nat) - (0 + 1) = 0 from rfl, h0, h1]
    norm_num)]
  rw [skip_to_leaf tbl01 4 1 st tr (1 * (1 / 4)) 1 (0 ||| 2) (0 + 1) 0 15 (0 + 1)
    (by norm_num) (by
      intro b hb1 hb2
      have hb1' : 1 ≤ b := by omega
      interval_cases b <;> decide)]
  rw [fill_box16 tbl01 4 1 st tr (1 * (1 / 4)) 1 (0 ||| 2) (0 + 1) 0 16
    (by norm_num), if_pos rfl, if_pos (by rw [h1]; norm_num)]

lemma round1_start (st : BBState) (h0 : st.bounds 0 = 1)
    (h1 : st.bounds 1 = 1 * (1 / 256)) :
    (branch_bound_start tbl01 4 1 st 0 0 4).bounds =
      Function.update st.bounds 1 (1 * (1 / 4)) := by
  rw [start_eq_foldl tbl01 4 1 16 0 4 0 st rfl]
  have hid : ∀ (s : BBState) (p : Nat), p ∈ branch_bound_startList 0 0 4 → p ≠ 1 →
      branch_bound_fill tbl01 4 1 s (Function.update (fun _ => 0) 0 p) 1 p 0 0 0 0 = s := by
    intro s p hp hp1
    have hmem := (startList_mem_iff 16 0 4 0 rfl (by norm_num) (by norm_num) p).mp hp
    exact dead_walk tbl01 4 1 s _ 1 p 0 0 0 0 (tbl01_dead hmem.1 hmem.2.1 hp1)
  have hmem1 : 1 ∈ branch_bound_startList 0 0 4 := by
    rw [startList_mem_iff 16 0 4 0 rfl (by norm_num) (by norm_num) 1]
    exact ⟨one_ne_zero, by norm_num, by simpa using Nat.mod_one 1, by decide⟩
  have hnd := startList_nodup 16 0 4 0 rfl (by norm_num) (by norm_num)
  rw [foldl_single (branch_bound_startList 0 0 4) hid hmem1 hnd st]
  exact round1_fill st (Function.update (fun _ => 0) 0 1) h0 h1

lemma round2_fill (st : BBState) (tr : Nat → Nat) (h1 : st.bounds 1 = 1 * (1 / 4))
    (h2 : st.bounds 2 = 1 * (1 / 4) * (1 / 256)) :
    branch_bound_fill tbl01 4 2 st tr 1 1 0 0 0 0 = st := by
  rw [branch_bound_fill, dif_pos (by norm_num : (0 : Nat) < 16),
    if_neg (by decide : ¬ ((1 : Nat) >>> (0 * 4)) &&& 0xf = 0),
    if_neg (by decide : ¬ (0 : Nat) ≥ 4)]
  rw [show tbl01 0 ((1 >>> (0 * 4)) &&& 0xf) = [⟨1, 2, 1, (1 / 4 : ℚ)⟩] from rfl]
  simp only [branch_bound_recs]
  rw [if_neg (by
    rw [show (2 : Nat) - (0 + 1) = 1 from rfl, h1, h2]
    norm_num)]
  rw [skip_to_leaf tbl01 4 2 st tr (1 * (1 / 4)) 1 (0 ||| 2) (0 + 1) 0 15 (0 + 1)
    (by norm_num) (by
      intro b hb1 hb2
      have hb1' : 1 ≤ b := by omega
      interval_cases b <;> decide)]
  rw [fill_box16 tbl01 4 2 st tr (1 * (1 / 4)) 1 (0 ||| 2) (0 + 1) 0 16
    (by norm_num), if_neg (by norm_num), dif_pos (by norm_num : 0 + 1 < 2)]
  exact dead_walk tbl01 4 2 st _ (1 * (1 / 4)) (0 ||| 2) 0 0 (0 + 1) 0
    ⟨0, le_refl 0, by norm_num, by decide, by rfl⟩

lemma round2_start (st : BBState) (h1 : st.bounds 1 = 1 * (1 / 4))
    (h2 : st.bounds 2 = 1 * (1 / 4) * (1 / 256)) :
    branch_bound_start tbl01 4 2 st 0 0 4 = st := by
  rw [start_eq_foldl tbl01 4 2 16 0 4 0 st rfl]
  have hid : ∀ (s : BBState) (p : Nat), p ∈ branch_bound_startList 0 0 4 → p ≠ 1 →
      branch_bound_fill tbl01 4 2 s (Function.update (fun _ => 0) 0 p) 1 p 0 0 0 0 = s := by
    intro s p hp hp1
    have hmem := (startList_mem_iff 16 0 4 0 rfl (by norm_num) (by norm_num) p).mp hp
    exact dead_walk tbl01 4 2 s _ 1 p 0 0 0 0 (tbl01_dead hmem.1 hmem.2.1 hp1)
  have hmem1 : 1 ∈ branch_bound_startList 0 0 4 := by
    rw [startList_mem_iff 16 0 4 0 rfl (by norm_num) (by norm_num) 1]
    exact ⟨one_ne_zero, by norm_num, by simpa using Nat.mod_one 1, by decide⟩
  have hnd := startList_nodup 16 0 4 0 rfl (by norm_num) (by norm_num)
  rw [foldl_single (branch_bound_startList 0 0 4) hid hmem1 hnd st]
  exact round2_fill st (Function.update (fun _ => 0) 0 1) h1 h2

lemma maxC2_tbl01 : maxC2 tbl01 = 1 / 4 := by
  have h : maxC2 tbl01 = max 0 (1 / 4 : ℚ) := rfl
  rw [h, max_eq_right (by norm_num : (0 : ℚ) ≤ 1 / 4)]

/-- The initial state of `branch_bound_search`: all bounds 0 except `bounds[0] = 1`. -/
def bbInit : BBState :=
  { bounds := Function.update (fun _ => 0) 0 1, trail := fun _ => 0 }

/-- The seeding step of `branch_bound_search` before the depth-`k+1` run:
`bounds[k+1] := bounds[k] * 2^-8`. -/
def bbSeed (st : BBState) (k : Nat) : BBState :=
  { st with bounds := Function.update st.bounds (k + 1) (st.bounds k * (1 / 256)) }

lemma search_succ (tbl : Nat → Nat → List approx_t) (R : Nat) :
    branch_bound_search tbl (R + 1) =
      branch_bound_start tbl 4 (R + 1) (bbSeed (branch_bound_search tbl R) R) 0 0 4 := by
  rw [branch_bound_search, List.range_succ, List.foldl_append, List.foldl_cons,
    List.foldl_nil, ← branch_bound_search]
  rfl

lemma search_zero (tbl : Nat → Nat → List approx_t) :
    branch_bound_search tbl 0 = bbInit := by
  rw [branch_bound_search, List.range_zero, List.foldl_nil]
  rfl

lemma bbSeed_bounds_same (st : BBState) (k : Nat) :
    (bbSeed st k).bounds (k + 1) = st.bounds k * (1 / 256) :=
  Function.update_same _ _ _

lemma bbSeed_bounds_ne (st : BBState) (k i : Nat) (h : i ≠ k + 1) :
    (bbSeed st k).bounds i = st.bounds i :=
  Function.update_noteq h _ _

lemma bbInit_bounds0 : bbInit.bounds 0 = 1 := by
  show Function.update (fun _ => (0 : ℚ)) 0 1 0 = 1
  exact Function.update_same _ _ _

/-- C1 counterexample: for the one-record table `tbl01` (single approximation with
squared correlation `1/4` and non-zero output), `max_c2 = 1/4`, and at `R = 2` the
search terminates with `bounds[1] = 1/4` but `bounds[2] = 1/1024` (the untouched
seed `bounds[1] * 2^-8`), so `bounds[2] < bounds[1] * max_c2 = 1/16`: the claimed
floor `bounds[r] >= bounds[r-1] * max_c2` is violated. -/
theorem bounds_maxc2_floor_violated :
    maxC2 tbl01 = 1 / 4 ∧
    (branch_bound_search tbl01 2).bounds 0 = 1 ∧
    (branch_bound_search tbl01 2).bounds 1 = 1 / 4 ∧
    (branch_bound_search tbl01 2).bounds 2 = 1 / 1024 ∧
    ¬ ((branch_bound_search tbl01 2).bounds 1 * maxC2 tbl01 ≤
        (branch_bound_search tbl01 2).bounds 2) := by
  have e1 : branch_bound_search tbl01 1 =
      branch_bound_start tbl01 4 1 (bbSeed (branch_bound_search tbl01 0) 0) 0 0 4 :=
    search_succ tbl01 0
  have e2 : branch_bound_search tbl01 2 =
      branch_bound_start tbl01 4 2 (bbSeed (branch_bound_search tbl01 1) 1) 0 0 4 :=
    search_succ tbl01 1
  rw [search_zero] at e1
  have h0 : (bbSeed bbInit 0).bounds 0 = 1 := by
    rw [bbSeed_bounds_ne bbInit 0 0 (by omega), bbInit_bounds0]
  have h1 : (bbSeed bbInit 0).bounds 1 = 1 * (1 / 256) := by
    rw [show (bbSeed bbInit 0).bounds 1 = bbInit.bounds 0 * (1 / 256) from
      bbSeed_bounds_same bbInit 0, bbInit_bounds0]
  have hs1 : (branch_bound_start tbl01 4 1 (bbSeed bbInit 0) 0 0 4).bounds =
      Function.update (bbSeed bbInit 0).bounds 1 (1 * (1 / 4)) :=
    round1_start _ h0 h1
  rw [e1] at e2
  have h21 : (bbSeed (branch_bound_start tbl01 4 1 (bbSeed bbInit 0) 0 0 4) 1).bounds 1 =
      1 * (1 / 4) := by
    rw [bbSeed_bounds_ne _ 1 1 (by omega), hs1]
    exact Function.update_same _ _ _
  have h22 : (bbSeed (branch_bound_start tbl01 4 1 (bbSeed bbInit 0) 0 0 4) 1).bounds 2 =
      1 * (1 / 4) * (1 / 256) := by
    rw [show (bbSeed (branch_bound_start tbl01 4 1 (bbSeed bbInit 0) 0 0 4) 1).bounds 2 =
        (branch_bound_start tbl01 4 1 (bbSeed bbInit 0) 0 0 4).bounds 1 * (1 / 256) from
      bbSeed_bounds_same _ 1, hs1, Function.update_same]
  have h20 : (bbSeed (branch_bound_start tbl01 4 1 (bbSeed bbInit 0) 0 0 4) 1).bounds 0 =
      1 := by
    rw [bbSeed_bounds_ne _ 1 0 (by omega), hs1,
      Function.update_noteq (by omega : (0 : Nat) ≠ 1)]
    exact h0
  have hfin : branch_bound_search tbl01 2 =
      bbSeed (branch_bound_start tbl01 4 1 (bbSeed bbInit 0) 0 0 4) 1 :=
    e2.trans (round2_start _ h21 h22)
  rw [hfin]
  refine ⟨maxC2_tbl01, h20, ?_, ?_, ?_⟩
  · rw [h21]
    norm_num
  · rw [h22]
    norm_num
  · rw [h21, h22, maxC2_tbl01]
    norm_num
